import Mathlib

/-!
Verification of the flat hit-table engine of modules/hits.py.

The development shallowly embeds the FlatHits class hierarchy: a hit table is
a list of records (one per hit) together with the lookup tables
event_to_n_hits, event_to_hits and hits_to_events and the counters n_hits and
n_events.  Numeric hit fields (hit type codes, times, energy deposits, flat
geometry ids, position tags) are modelled as integers; all concrete values in
the specification's scenarios are small integers, on which numpy float64
arithmetic is exact.  numpy's unstable in-place sorts are modelled by a
(stable) insertion sort, one admissible comparison sort; fancy-indexing
semantics (negative wrap-around, bounds errors, and the rejection of float
index arrays by boolean indexing) are modelled explicitly.  Operations that
can raise mid-mutation return the Python object's state at raise time in the
error payload, so that atomicity-on-failure claims can be stated.
-/

/-- One row of the flat hit table.  The first five fields are data columns
imported from the source file (values modelled as integers); hitsIndex and
eventIndex are the two derived index columns maintained by the class. -/
structure Hit where
  hitType : Int
  time : Int
  edep : Int
  flatId : Int
  zPos : Int
  hitsIndex : Nat
  eventIndex : Nat
deriving Repr, DecidableEq, Inhabited

/-- A column name, as passed in the "variable" argument of the filtering and
sorting methods. -/
inductive HitVar where
  | hitType | time | edep | flatId | zPos | hitsIndex | eventIndex
deriving Repr, DecidableEq

/-- Reading a named column entry of a row (these_hits[variable]). -/
def Hit.get (h : Hit) : HitVar → Int
  | .hitType => h.hitType
  | .time => h.time
  | .edep => h.edep
  | .flatId => h.flatId
  | .zPos => h.zPos
  | .hitsIndex => Int.ofNat h.hitsIndex
  | .eventIndex => Int.ofNat h.eventIndex

/-- The row with its two derived index columns zeroed out: the payload of a
row, used to state that an operation preserves all non-index columns. -/
def Hit.clearIdx (h : Hit) : Hit :=
  { h with hitsIndex := 0, eventIndex := 0 }

/-- Insertion of an element into a sorted list (helper for sortBy). -/
def insertBy {α : Type} (le : α → α → Bool) (a : α) : List α → List α
  | [] => [a]
  | b :: bs => if le a b then a :: b :: bs else b :: insertBy le a bs

/-- Insertion sort by a boolean comparison: model for numpy argsort followed
by applying the sort order (numpy's default sort is an unspecified unstable
comparison sort; any comparison sort realises it on distinct keys). -/
def sortBy {α : Type} (le : α → α → Bool) : List α → List α
  | [] => []
  | a :: as => insertBy le a (sortBy le as)

/-- np.unique: the sorted list of distinct values. -/
def npUnique (l : List Int) : List Int :=
  (sortBy (fun a b => decide (a ≤ b)) l).dedup

/-- np.max over a nonempty integer array (callers guard the empty case). -/
def npMaxInt : List Int → Int
  | [] => 0
  | x :: xs => xs.foldl max x

/-- One plus the largest element of a list of naturals (0 for the empty
list): the data-determined lower bound on np.bincount's output length. -/
def maxElemSucc (xs : List Nat) : Nat :=
  xs.foldr (fun x m => max (x + 1) m) 0

/-- np.bincount(xs, minlength): entry i counts the occurrences of i in xs;
the output length is the larger of minlength and (max xs) + 1. -/
def bincount (xs : List Nat) (minlength : Nat) : List Nat :=
  (List.range (max minlength (maxElemSucc xs))).map (fun i => xs.count i)

/-- numpy integer indexing into an array of length len: indices in [0, len)
address directly, indices in [-len, 0) wrap around, anything else raises. -/
def npIndex (len : Nat) (i : Int) : Option Nat :=
  if 0 ≤ i ∧ i < (len : Int) then some i.toNat
  else if -(len : Int) ≤ i ∧ i < 0 then some (i + len).toNat
  else none

/-- numpy fancy indexing with a list of integer indices: every index is
resolved under npIndex and the whole access raises as soon as one index is
out of range. -/
def npIndexAll (len : Nat) : List Int → Option (List Nat)
  | [] => some []
  | i :: is =>
    match npIndex len i, npIndexAll len is with
    | some j, some js => some (j :: js)
    | _, _ => none

/-- Worker for _generate_lookup_tables: the event_to_hits table built from
the tail of event_to_n_hits, with first_hit as the running offset. -/
def eventToHitsAux (first : Nat) : List Nat → List (List Nat)
  | [] => []
  | n :: rest => List.range' first n :: eventToHitsAux (first + n) rest

/-- event_to_hits as produced by _generate_lookup_tables: event e maps to
the contiguous block of hit ids np.arange(first_hit, last_hit). -/
def generateEventToHits (counts : List Nat) : List (List Nat) :=
  eventToHitsAux 0 counts

/-- Worker for _generate_lookup_tables: the hits_to_events column built from
the tail of event_to_n_hits, with e the index of the first listed event. -/
def hitsToEventsAux (e : Nat) : List Nat → List Nat
  | [] => []
  | n :: rest => List.replicate n e ++ hitsToEventsAux (e + 1) rest

/-- hits_to_events as produced by _generate_lookup_tables: hit h maps to the
event whose block of hit ids contains h. -/
def generateHitsToEvents (counts : List Nat) : List Nat :=
  hitsToEventsAux 0 counts

/-- The event owning flat hit h in a table with the given per-event hit
counts (specification-side description of hits_to_events). -/
def owner : List Nat → Nat → Nat
  | [], _ => 0
  | n :: rest, h => if h < n then 0 else owner rest (h - n) + 1

/-- Worker for _generate_indexes: row i receives hit index i and the event
index stored at position i of hits_to_events.  The two lists always have
equal length at every call site (numpy column assignment would raise
otherwise); the truncating mismatch cases are unreachable. -/
def genIndexesAux : Nat → List Hit → List Nat → List Hit
  | _, [], _ => []
  | _, _ :: _, [] => []
  | i, h :: hs, e :: es =>
    { h with hitsIndex := i, eventIndex := e } :: genIndexesAux (i + 1) hs es

/-- _generate_indexes: data[hits_index] = np.arange(n_hits);
data[event_index] = hits_to_events. -/
def generateIndexes (d : List Hit) (h2e : List Nat) : List Hit :=
  genIndexesAux 0 d h2e

/-- The filtering conditions accepted by _get_mask: a list of accepted
values, a strict lower bound, a strict upper bound, and the invert flag. -/
structure HitCond where
  values : Option (List Int)
  greater_than : Option Int
  less_than : Option Int
  invert : Bool
deriving Repr, DecidableEq

/-- True when no condition at all was supplied (values, greater_than and
less_than all absent): _get_mask then leaves its initial np.ones array, a
float64 array rather than a boolean mask. -/
def HitCond.isTrivial (c : HitCond) : Bool :=
  c.values.isNone && c.greater_than.isNone && c.less_than.isNone

/-- The per-row truth value of the combined mask of _get_mask: the supplied
conditions are ANDed together and the invert flag negates the result. -/
def maskRow (f : HitVar) (c : HitCond) (h : Hit) : Bool :=
  let m := true
  let m := match c.values with
    | some vs => m && vs.contains (h.get f)
    | none => m
  let m := match c.greater_than with
    | some g => m && decide (h.get f > g)
    | none => m
  let m := match c.less_than with
    | some l => m && decide (h.get f < l)
    | none => m
  if c.invert then !m else m

/-- Boolean-mask selection these_hits[mask] (numpy requires the mask to have
the same length as the array; all call sites build the mask from the rows
themselves, so the lengths always agree). -/
def filterByMask : List Hit → List Bool → List Hit
  | [], _ => []
  | _, [] => []
  | h :: hs, b :: bs =>
    if b then h :: filterByMask hs bs else filterByMask hs bs

/-- Selection of the rows passing the combined condition mask: the
composition of _get_mask with boolean-mask indexing, in the case where at
least one condition was supplied (so that the mask is a genuine boolean
array). -/
def maskFilter (rows : List Hit) (f : HitVar) (c : HitCond) : List Hit :=
  filterByMask rows (rows.map (maskRow f c))

/-- The state of a FlatHits object: the flat data table, the three lookup
tables, the two counters, and the configured signal code. -/
structure FlatHits where
  data : List Hit
  event_to_n_hits : List Nat
  event_to_hits : List (List Nat)
  hits_to_events : List Nat
  n_hits : Nat
  n_events : Nat
  signal_coding : Int
deriving Repr, DecidableEq

/-- _reset_all_internal_data: regenerate the lookup tables from the current
event_to_n_hits (_generate_lookup_tables), refresh the two counters
(_generate_counters), and rewrite the two index columns
(_generate_indexes). -/
def resetAllInternal (s : FlatHits) : FlatHits :=
  let e2h := generateEventToHits s.event_to_n_hits
  let h2e := generateHitsToEvents s.event_to_n_hits
  { data := generateIndexes s.data h2e
    event_to_n_hits := s.event_to_n_hits
    event_to_hits := e2h
    hits_to_events := h2e
    n_hits := h2e.length
    n_events := s.event_to_n_hits.length
    signal_coding := s.signal_coding }

/-- _trim_lookup_tables: event_to_n_hits = event_to_n_hits[events] followed
by _reset_all_internal_data.  Callers only pass in-range event indices, so
the getD default is never consulted under the class invariants. -/
def trimLookupTables (s : FlatHits) (events : List Nat) : FlatHits :=
  resetAllInternal
    { s with event_to_n_hits := events.map (fun e => s.event_to_n_hits.getD e 0) }

/-- _reset_event_to_n_hits: recount the hits per event index with
np.bincount over the event_index column (minlength = the old n_events),
then trim the lookup tables to the events with a positive count
(np.where(event_to_n_hits > 0)[0] enumerates them in ascending order). -/
def resetEventToNHits (s : FlatHits) : FlatHits :=
  trimLookupTables
    { s with event_to_n_hits := bincount (s.data.map (·.eventIndex)) s.n_events }
    ((List.range (bincount (s.data.map (·.eventIndex)) s.n_events).length).filter
      (fun e => decide (0 < (bincount (s.data.map (·.eventIndex)) s.n_events).getD e 0)))

/-- get_events with a single integer selector: data[event_to_hits[events]].
The inner hit ids are in range whenever the table invariants hold, so the
getD default row is never consulted there; the event index itself follows
numpy integer-indexing rules (negative wrap-around, IndexError outside
[-n, n)). -/
def FlatHits.getEventsSingle (s : FlatHits) (e : Int) : Except String (List Hit) :=
  match npIndex s.event_to_hits.length e with
  | none => .error "IndexError"
  | some i => .ok ((s.event_to_hits.getD i []).map (fun h => s.data.getD h default))

/-- filter_hits: pure selection of the rows passing the mask.  When no
condition at all is supplied and invert is false, _get_mask returns its
initial np.ones array, which is float64: indexing the record array with a
float array is not boolean masking and raises (IndexError on numpy >= 1.12;
older numpy deprecation-casts the indices, which selects row 1 over and
over - either way the input rows are not returned unchanged). -/
def FlatHits.filterHits (rows : List Hit) (f : HitVar) (c : HitCond) :
    Except String (List Hit) :=
  if c.isTrivial && !c.invert then .error "IndexError: float index array"
  else .ok (maskFilter rows f c)

/-- trim_hits: keep the rows passing the mask (data = data[mask]), then
_reset_event_to_n_hits.  The float-mask failure mode of filter_hits applies
before any mutation, so the error payload carries the unchanged state. -/
def FlatHits.trimHits (s : FlatHits) (f : HitVar) (c : HitCond) :
    Except (String × FlatHits) FlatHits :=
  if c.isTrivial && !c.invert then .error ("IndexError: float index array", s)
  else .ok (resetEventToNHits { s with data := maskFilter s.data f c })

/-- The rows surviving an event-level trim: data[keep_hits] for
keep_hits = np.concatenate(event_to_hits[events]), the selected events' hit
blocks concatenated in the order of the events argument.  The hit ids in
the blocks are in range whenever the table invariants hold, so the getD
default row is never consulted there. -/
def trimmedData (s : FlatHits) (idxs : List Nat) : List Hit :=
  ((idxs.map (fun e => s.event_to_hits.getD e [])).flatten).map
    (fun h => s.data.getD h default)

/-- trim_events: keep_hits = np.concatenate(event_to_hits[events]) (in the
order of the events argument), data = data[keep_hits], then
_trim_lookup_tables(events).  Both fancy-indexing steps use the same event
indices; under the class invariants event_to_hits and event_to_n_hits have
equal length, so one bounds check covers both.  Two failure modes, both
raising before any mutation: an out-of-range event index fails the fancy
indexing itself, and an empty events list makes np.concatenate raise
ValueError (need at least one array to concatenate) over the empty
selection. -/
def FlatHits.trimEvents (s : FlatHits) (events : List Int) :
    Except (String × FlatHits) FlatHits :=
  match npIndexAll s.event_to_hits.length events with
  | none => .error ("IndexError", s)
  | some idxs =>
    if idxs.isEmpty then
      .error ("ValueError: need at least one array to concatenate", s)
    else .ok (trimLookupTables { s with data := trimmedData s idxs } idxs)

/-- Ascending comparison on a named column, as used by argsort(order=f). -/
def hitLe (f : HitVar) (a b : Hit) : Bool :=
  decide (a.get f ≤ b.get f)

/-- One loop iteration of sort_hits: the rows of one event are sorted by the
given column; a descending sort reverses the ascending argsort order. -/
def sortSlice (d : List Hit) (hs : List Nat) (f : HitVar) (asc : Bool) : List Hit :=
  let slice := hs.map (fun h => d.getD h default)
  let sorted := sortBy (hitLe f) slice
  if asc then sorted else sorted.reverse

/-- The flat table after the per-event sorting loop of sort_hits: each of
the n_events events is sorted internally on the given column.  The
per-event blocks of event_to_hits partition the table under the class
invariants, so writing every sorted block back over its own positions
yields their concatenation in event order. -/
def sortedData (s : FlatHits) (f : HitVar) (asc : Bool) : List Hit :=
  ((List.range s.n_events).map
    (fun evt => sortSlice s.data (s.event_to_hits.getD evt []) f asc)).flatten

/-- sort_hits: the per-event sorting loop, after which the index columns are
rewritten only when reset_index is true. -/
def FlatHits.sortHits (s : FlatHits) (f : HitVar) (asc reset_index : Bool) : FlatHits :=
  if reset_index then
    { s with data := generateIndexes (sortedData s f asc) s.hits_to_events }
  else { s with data := sortedData s f asc }

/-- Lexicographic comparison on (event_index, time), the key of the global
re-sort performed by add_hits. -/
def eventTimeLe (a b : Hit) : Bool :=
  decide (a.eventIndex < b.eventIndex) ||
    (decide (a.eventIndex = b.eventIndex) && decide (a.time ≤ b.time))

/-- add_hits: data = np.hstack([data, hits]); data.sort(order=[event_index,
time]); _reset_event_to_n_hits.  The hasTimeName flag records whether the
object's class defines the time_name attribute: plain FlatHits instances do
not (GeomHits and its subclasses set it), so for them the in-place sort
raises AttributeError after data has already been replaced by the
concatenation - the error payload carries that partially mutated state. -/
def FlatHits.addHits (s : FlatHits) (hits : List Hit) (hasTimeName : Bool) :
    Except (String × FlatHits) FlatHits :=
  let stacked := s.data ++ hits
  if hasTimeName then
    .ok (resetEventToNHits { s with data := sortBy eventTimeLe stacked })
  else
    .error ("AttributeError: time_name", { s with data := stacked })

/-- get_signal_hits restricted to a single-event selector: filter_hits on
the hit-type column against the configured signal code (the single value is
wrapped into a one-element list by _get_mask). -/
def FlatHits.getSignalHitsSingle (s : FlatHits) (e : Int) : Except String (List Hit) := do
  let rows ← s.getEventsSingle e
  FlatHits.filterHits rows .hitType ⟨some [s.signal_coding], none, none, false⟩

/-- The four mutating operations of the claim on invariant preservation. -/
inductive Op where
  | trimHits (f : HitVar) (c : HitCond)
  | trimEvents (events : List Int)
  | sortHits (f : HitVar) (asc reset_index : Bool)
  | addHits (hits : List Hit) (hasTimeName : Bool)
deriving Repr, DecidableEq

/-- Whether the operation ends by rewriting the index columns: all do,
except sort_hits when called with reset_index=False. -/
def Op.resetsIndexes : Op → Bool
  | .sortHits _ _ reset_index => reset_index
  | _ => true

/-- Running one mutating operation on a table; errors carry the Python
object's state at raise time. -/
def applyOp (op : Op) (s : FlatHits) : Except (String × FlatHits) FlatHits :=
  match op with
  | .trimHits f c => s.trimHits f c
  | .trimEvents events => s.trimEvents events
  | .sortHits f asc reset_index => .ok (s.sortHits f asc reset_index)
  | .addHits hits hasTimeName => s.addHits hits hasTimeName

/-- The slice of the geometry-provider contract consumed by the layer cut:
point_layers[flat_id] gives the geometric layer of a detector point.  The
provider itself (the cylinder module) is an external collaborator. -/
structure Geom where
  point_layers : Int → Int

/-- The state of a CDCHits pair view: the tracker table, the hodoscope
table, the tracker geometry, and the synchronized event counter
(min of the two event counts at construction). -/
structure CDC where
  cydet : FlatHits
  cth : FlatHits
  geom : Geom
  n_events : Nat

/-- CDCHits.trim_events: forward to both tables, then refresh n_events from
the tracker.  A failure in the tracker propagates with neither table
mutated; a failure in the hodoscope propagates with the tracker already
trimmed (the error payload carries the view's state at raise time). -/
def CDC.trimEvents (c : CDC) (events : List Int) : Except (String × CDC) CDC :=
  match c.cydet.trimEvents events with
  | .error (e, s') => .error (e, { c with cydet := s' })
  | .ok cy' =>
    match c.cth.trimEvents events with
    | .error (e, s') => .error (e, { c with cydet := cy', cth := s' })
    | .ok cth' => .ok { c with cydet := cy', cth := cth', n_events := cy'.n_events }

/-- get_sig_wires(evt) = get_sig_vols(evt) = np.unique of the flat geometry
ids of the signal hits of the event. -/
def CDC.sigWires (c : CDC) (evt : Int) : Except String (List Int) := do
  let rows ← c.cydet.getSignalHitsSingle evt
  pure (npUnique (rows.map (·.flatId)))

/-- The signal-wire loop of apply_max_layer_cut over a list of event
indices; the whole loop raises at the first event whose lookup fails. -/
def collectSigWires (c : CDC) : List Nat → Except String (List (List Int))
  | [] => .ok []
  | e :: es =>
    match c.sigWires (Int.ofNat e), collectSigWires c es with
    | .ok w, .ok ws => .ok (w :: ws)
    | .error err, _ => .error err
    | _, .error err => .error err

/-- apply_max_layer_cut: for each event in range(n_events) take the maximum
of point_layers over its signal wires (-1 when it has no signal wire), keep
the events whose maximum reaches ideal_layer (np.where lists them in
ascending order), and trim both tables to them.  Any lookup failure in the
loop raises before the trim. -/
def CDC.applyMaxLayerCut (c : CDC) (ideal_layer : Int) : Except (String × CDC) CDC :=
  match collectSigWires c (List.range c.n_events) with
  | .error e => .error (e, c)
  | .ok wires =>
    let maxLayer := wires.map (fun ws =>
      if ws.length ≠ 0 then npMaxInt (ws.map c.geom.point_layers) else -1)
    let good := ((List.range c.n_events).zip maxLayer).filter
      (fun p => decide (ideal_layer ≤ p.2)) |>.map (fun p => Int.ofNat p.1)
    c.trimEvents good

/-- GeomHits.get_measurement with a single-event selector: the named column
of the event's rows, get_events(events)[name]. -/
def geomGetMeasurement (s : FlatHits) (e : Int) (f : HitVar) : Except String (List Int) := do
  let rows ← s.getEventsSingle e
  pure (rows.map (·.get f))

/-- The state of a HitsMerger: the signal-side table (sig_class), the
background-side table (the CyDetHits data the merger itself was constructed
from), and the this_class tag.  The three per-field policy lists are fixed
at construction: summed = [edep], minned = [time], early = [hitType]. -/
structure Merger where
  sig : FlatHits
  bkg : FlatHits
  this_class : String

/-- HitsMerger.get_measurement for one event and one named column.  The
signal side's call is modelled with the GeomHits argument order (events,
name); reading both sources never mutates them.  The summed branch adds the
two columns element-wise (same-shape tables).  The minned branch executes
np.amin(sig_measure, bkg_measure), which passes the background array as the
axis argument and raises TypeError.  The early branch reads the undefined
names sig_class/sig/bkg/mask and raises NameError.  A field in no policy
list falls off the end of the function, returning Python None. -/
def Merger.getMeasurement (m : Merger) (event : Int) (f : HitVar) :
    Except String (Option (List Int)) := do
  let sigM ← geomGetMeasurement m.sig event f
  let bkgM ← geomGetMeasurement m.bkg event f
  if m.this_class = "cth" then
    pure (some (bkgM ++ sigM))
  else if m.this_class = "cydet" then
    if f = .edep then
      pure (some (List.zipWith (· + ·) sigM bkgM))
    else if f = .time then
      .error "TypeError: np.amin axis argument is an array"
    else if f = .hitType then
      .error "NameError: sig_class is not defined"
    else
      pure none
  else
    pure none

/-- The state of a finalized CTHHits object: the trimmed table plus the
upstream and downstream shortcut row sets. -/
structure CTHHits where
  base : FlatHits
  up_data : List Hit
  down_data : List Hit
deriving Repr, DecidableEq

/-- The accepted flat geometry ids of the hodoscope trim: range(0, 64*2). -/
def cthActiveIds : List Int :=
  (List.range 128).map Int.ofNat

/-- CTHHits._finalize_data: the FlatHits finalize rewrites the index columns
(_generate_indexes), the GeomHits finalize then sorts every event by time
(sort_hits with the default reset_index=True), trim_hits then removes the
hits in passive volumes (values=range(0, 64*2)), and finally the upstream
(position tag 1) and downstream (position tag 0) shortcut row sets are
filtered out of the remaining data.  Both the trim and the two filters pass
a values condition, so their float-mask failure branch is unreachable
(_get_mask builds a boolean mask) and trim_hits reduces to the
mask-then-reset composition spelled out here (theorem trimHits_ok). -/
def cthFinalize (s : FlatHits) : CTHHits :=
  let s2 := (FlatHits.sortHits
    { s with data := generateIndexes s.data s.hits_to_events } .time true true)
  let s3 := resetEventToNHits
    { s2 with data := maskFilter s2.data .flatId ⟨some cthActiveIds, none, none, false⟩ }
  { base := s3
    up_data := maskFilter s3.data .zPos ⟨some [1], none, none, false⟩
    down_data := maskFilter s3.data .zPos ⟨some [0], none, none, false⟩ }

/-- Invariant 1 of the EventIndex (section 3 of the specification): each
event maps to a contiguous ascending integer range and the concatenation of
the per-event ranges is exactly 0..N-1. -/
def Invariant1 (s : FlatHits) : Prop :=
  (∀ l ∈ s.event_to_hits, ∃ a, l = List.range' a l.length) ∧
    s.event_to_hits.flatten = List.range s.n_hits

/-- Invariant 2: hits_to_events[h] = e exactly when h lies in
event_to_hits[e]. -/
def Invariant2 (s : FlatHits) : Prop :=
  ∀ h < s.n_hits, ∀ e < s.n_events,
    (s.hits_to_events.getD h 0 = e ↔ h ∈ s.event_to_hits.getD e [])

/-- Invariant 3: the hit counts sum to N, hits_to_events has length N, and
event_to_n_hits has length E. -/
def Invariant3 (s : FlatHits) : Prop :=
  s.event_to_n_hits.sum = s.n_hits ∧ s.n_hits = s.hits_to_events.length ∧
    s.event_to_n_hits.length = s.n_events

/-- The event_index half of invariant 4: the event_index column equals
hits_to_events. -/
def Invariant4event (s : FlatHits) : Prop :=
  s.data.map (·.eventIndex) = s.hits_to_events

/-- Invariant 4 in full: the hit_index column equals each row's position in
the flat table, and the event_index column equals hits_to_events. -/
def Invariant4 (s : FlatHits) : Prop :=
  s.data.map (·.hitsIndex) = List.range s.data.length ∧ Invariant4event s

/-- The canonical table relation the implementation maintains between calls
other than sort_hits(reset_index=False): all derived structures agree with
what _reset_all_internal_data computes from event_to_n_hits, except that the
hit_index column is not constrained. -/
def TableWeak (s : FlatHits) : Prop :=
  s.event_to_hits = generateEventToHits s.event_to_n_hits ∧
    s.hits_to_events = generateHitsToEvents s.event_to_n_hits ∧
    s.n_events = s.event_to_n_hits.length ∧
    s.n_hits = s.hits_to_events.length ∧
    Invariant4event s

/-- The canonical table relation plus the hit_index column. -/
def TableFull (s : FlatHits) : Prop :=
  TableWeak s ∧ s.data.map (·.hitsIndex) = List.range s.data.length

instance (s : FlatHits) : Decidable (TableWeak s) := by
  unfold TableWeak Invariant4event; infer_instance

instance (s : FlatHits) : Decidable (TableFull s) := by
  unfold TableFull; infer_instance

/-- The block of rows of one event: data[event_to_hits[e]]. -/
def blockOf (s : FlatHits) (e : Nat) : List Hit :=
  (s.event_to_hits.getD e []).map (fun h => s.data.getD h default)

/-- The layers of the signal hits of one event (specification side). -/
def signalLayers (c : CDC) (e : Nat) : List Int :=
  ((blockOf c.cydet e).filter
      (fun h => decide (h.hitType = c.cydet.signal_coding))).map
    (fun h => c.geom.point_layers h.flatId)

/-- Specification-side description of the layer cut's per-event quantity:
the largest geometric layer touched by a signal hit of the event, or -1 for
an event without signal hits (section 4.5 of the specification). -/
def deepestSignalLayer (c : CDC) (e : Nat) : Int :=
  if (signalLayers c e).isEmpty then -1 else npMaxInt (signalLayers c e)

/-- The event indices kept by the layer cut, in ascending order
(specification side). -/
def goodMaxLayerEvents (c : CDC) (ideal_layer : Int) : List Nat :=
  (List.range c.n_events).filter (fun e => decide (ideal_layer ≤ deepestSignalLayer c e))

theorem length_hitsToEventsAux (counts : List Nat) (e0 : Nat) :
    (hitsToEventsAux e0 counts).length = counts.sum := by
  induction counts generalizing e0 with
  | nil => rfl
  | cons n rest ih => simp [hitsToEventsAux, ih]

theorem length_eventToHitsAux (counts : List Nat) (first : Nat) :
    (eventToHitsAux first counts).length = counts.length := by
  induction counts generalizing first with
  | nil => rfl
  | cons n rest ih => simp [eventToHitsAux, ih]

theorem flatten_eventToHitsAux (counts : List Nat) (first : Nat) :
    (eventToHitsAux first counts).flatten = List.range' first counts.sum := by
  induction counts generalizing first with
  | nil => rfl
  | cons n rest ih =>
    have happ := List.range'_append first n rest.sum 1
    simp only [one_mul] at happ
    simp [eventToHitsAux, ih, happ, Nat.add_comm n rest.sum]

theorem getD_replicate' {α : Type} (a d : α) (n i : Nat) :
    (List.replicate n a).getD i d = if i < n then a else d := by
  induction n generalizing i with
  | zero => simp [List.getD]
  | succ m ih =>
    cases i with
    | zero => rw [List.replicate_succ, List.getD_cons_zero, if_pos (Nat.succ_pos m)]
    | succ j =>
      rw [List.replicate_succ, List.getD_cons_succ, ih j]
      simp [Nat.succ_lt_succ_iff]

theorem getD_eventToHitsAux (counts : List Nat) (first e : Nat)
    (he : e < counts.length) :
    (eventToHitsAux first counts).getD e [] =
      List.range' (first + (counts.take e).sum) (counts.getD e 0) := by
  induction counts generalizing first e with
  | nil => simp at he
  | cons n rest ih =>
    cases e with
    | zero => simp [eventToHitsAux]
    | succ e' =>
      have he' : e' < rest.length := by simpa using he
      simp only [eventToHitsAux, List.getD_cons_succ, List.take_succ_cons,
        List.sum_cons, ih rest.sum.succ.pred e' he']
      rw [ih (first + n) e' he']
      congr 1
      omega

theorem getD_hitsToEventsAux (counts : List Nat) (e0 h d : Nat)
    (hh : h < counts.sum) :
    (hitsToEventsAux e0 counts).getD h d = e0 + owner counts h := by
  induction counts generalizing e0 h with
  | nil => simp at hh
  | cons n rest ih =>
    by_cases hn : h < n
    · rw [hitsToEventsAux, List.getD_append _ _ _ _ (by simpa using hn),
        getD_replicate', if_pos hn]
      simp [owner, hn]
    · have hlen : (List.replicate n e0).length ≤ h := by simpa using Nat.le_of_not_lt hn
      rw [hitsToEventsAux, List.getD_append_right _ _ _ _ hlen]
      simp only [List.length_replicate]
      rw [ih (e0 + 1) (h - n) (by simp at hh; omega)]
      simp only [owner, if_neg hn]
      omega

theorem owner_lt (counts : List Nat) (h : Nat) (hh : h < counts.sum) :
    owner counts h < counts.length := by
  induction counts generalizing h with
  | nil => simp at hh
  | cons n rest ih =>
    by_cases hn : h < n
    · simp [owner, hn]
    · have := ih (h - n) (by simp at hh; omega)
      simp only [owner, if_neg hn, List.length_cons]
      omega

theorem owner_eq_iff (counts : List Nat) (h e : Nat) (hh : h < counts.sum)
    (he : e < counts.length) :
    owner counts h = e ↔
      (counts.take e).sum ≤ h ∧ h < (counts.take e).sum + counts.getD e 0 := by
  induction counts generalizing h e with
  | nil => simp at he
  | cons n rest ih =>
    cases e with
    | zero =>
      simp only [owner, List.take_zero, List.sum_nil, List.getD_cons_zero,
        Nat.zero_add]
      by_cases hn : h < n
      · rw [if_pos hn]
        exact ⟨fun _ => ⟨Nat.zero_le h, hn⟩, fun _ => rfl⟩
      · rw [if_neg hn]
        constructor
        · intro h0; exact absurd h0 (Nat.succ_ne_zero _)
        · intro hc; exact absurd hc.2 hn
    | succ e' =>
      have he' : e' < rest.length := by simpa using he
      by_cases hn : h < n
      · simp only [owner, if_pos hn, List.take_succ_cons, List.sum_cons]
        constructor
        · intro h0; omega
        · intro ⟨h1, _⟩; omega
      · have hrec := ih (h - n) e' (by simp at hh; omega) he'
        simp only [owner, if_neg hn, List.take_succ_cons, List.sum_cons,
          List.getD_cons_succ]
        constructor
        · intro heq
          have := hrec.mp (by omega)
          omega
        · intro ⟨h1, h2⟩
          have := hrec.mpr (by omega)
          omega

theorem mem_hitsToEventsAux (counts : List Nat) (e0 x : Nat)
    (hx : x ∈ hitsToEventsAux e0 counts) : e0 ≤ x ∧ x < e0 + counts.length := by
  induction counts generalizing e0 with
  | nil => simp [hitsToEventsAux] at hx
  | cons n rest ih =>
    simp only [hitsToEventsAux, List.mem_append, List.mem_replicate] at hx
    rcases hx with ⟨_, rfl⟩ | hx
    · simp only [List.length_cons]; omega
    · have := ih (e0 + 1) hx
      simp at this ⊢
      omega

theorem count_hitsToEventsAux (counts : List Nat) (e0 i : Nat) :
    (hitsToEventsAux e0 counts).count i =
      if e0 ≤ i ∧ i < e0 + counts.length then counts.getD (i - e0) 0 else 0 := by
  induction counts generalizing e0 with
  | nil => simp [hitsToEventsAux]
  | cons n rest ih =>
    rw [hitsToEventsAux, List.count_append, List.count_replicate, ih (e0 + 1)]
    by_cases h0 : i = e0
    · subst h0
      simp
    · have hne : (e0 == i) = false := by simp [h0]; omega
      rw [hne]
      simp only [if_false, Bool.false_eq_true, Nat.zero_add]
      by_cases h1 : e0 + 1 ≤ i ∧ i < e0 + 1 + rest.length
      · have h2 : e0 ≤ i ∧ i < e0 + (n :: rest).length := by
          simp only [List.length_cons]; omega
        rw [if_pos h1, if_pos h2, show i - e0 = (i - (e0 + 1)) + 1 by omega,
          List.getD_cons_succ]
      · have h2 : ¬(e0 ≤ i ∧ i < e0 + (n :: rest).length) := by
          simp only [List.length_cons]; omega
        rw [if_neg h1, if_neg h2]

theorem length_genIndexesAux (d : List Hit) (es : List Nat) (i : Nat)
    (hlen : d.length = es.length) :
    (genIndexesAux i d es).length = d.length := by
  induction d generalizing es i with
  | nil => rfl
  | cons h hs ih =>
    cases es with
    | nil => simp at hlen
    | cons e es' =>
      simp only [genIndexesAux, List.length_cons]
      rw [ih es' (i + 1) (by simpa using hlen)]

theorem map_hitsIndex_genIndexesAux (d : List Hit) (es : List Nat) (i : Nat)
    (hlen : d.length = es.length) :
    (genIndexesAux i d es).map (·.hitsIndex) = List.range' i d.length := by
  induction d generalizing es i with
  | nil => rfl
  | cons h hs ih =>
    cases es with
    | nil => simp at hlen
    | cons e es' =>
      simp only [genIndexesAux, List.map_cons, List.length_cons, List.range'_succ]
      rw [ih es' (i + 1) (by simpa using hlen)]

theorem map_eventIndex_genIndexesAux (d : List Hit) (es : List Nat) (i : Nat)
    (hlen : d.length = es.length) :
    (genIndexesAux i d es).map (·.eventIndex) = es := by
  induction d generalizing es i with
  | nil => cases es with
    | nil => rfl
    | cons e es' => simp at hlen
  | cons h hs ih =>
    cases es with
    | nil => simp at hlen
    | cons e es' =>
      simp only [genIndexesAux, List.map_cons]
      rw [ih es' (i + 1) (by simpa using hlen)]

theorem map_clearIdx_genIndexesAux (d : List Hit) (es : List Nat) (i : Nat)
    (hlen : d.length = es.length) :
    (genIndexesAux i d es).map Hit.clearIdx = d.map Hit.clearIdx := by
  induction d generalizing es i with
  | nil => rfl
  | cons h hs ih =>
    cases es with
    | nil => simp at hlen
    | cons e es' =>
      simp only [genIndexesAux, List.map_cons]
      rw [ih es' (i + 1) (by simpa using hlen)]
      rfl

theorem mem_genIndexesAux (d : List Hit) (es : List Nat) (i : Nat) (h : Hit)
    (hm : h ∈ genIndexesAux i d es) : ∃ h0 ∈ d, h.clearIdx = h0.clearIdx := by
  induction d generalizing es i with
  | nil => simp [genIndexesAux] at hm
  | cons x xs ih =>
    cases es with
    | nil => simp [genIndexesAux] at hm
    | cons e es' =>
      simp only [genIndexesAux, List.mem_cons] at hm
      rcases hm with rfl | hm
      · exact ⟨x, List.mem_cons_self x xs, rfl⟩
      · obtain ⟨h0, hh0, hc⟩ := ih es' (i + 1) hm
        exact ⟨h0, List.mem_cons_of_mem x hh0, hc⟩

theorem genIndexesAux_id (d : List Hit) (es : List Nat) (i : Nat)
    (hidx : d.map (·.hitsIndex) = List.range' i d.length)
    (hev : d.map (·.eventIndex) = es) :
    genIndexesAux i d es = d := by
  induction d generalizing es i with
  | nil => cases es with
    | nil => rfl
    | cons e es' => simp at hev
  | cons h hs ih =>
    cases es with
    | nil => simp at hev
    | cons e es' =>
      simp only [List.map_cons, List.length_cons, List.range'_succ,
        List.cons.injEq] at hidx hev
      obtain ⟨hi, hidx'⟩ := hidx
      obtain ⟨he, hev'⟩ := hev
      have hhead : ({ h with hitsIndex := i, eventIndex := e } : Hit) = h := by
        cases h
        simp_all
      simp only [genIndexesAux, hhead]
      rw [ih es' (i + 1) hidx' hev']

theorem lt_maxElemSucc (xs : List Nat) (x : Nat) (hx : x ∈ xs) :
    x < maxElemSucc xs := by
  induction xs with
  | nil => simp at hx
  | cons y ys ih =>
    rcases List.mem_cons.mp hx with rfl | hx
    · simp only [maxElemSucc, List.foldr]
      omega
    · have := ih hx
      simp only [maxElemSucc, List.foldr] at this ⊢
      omega

theorem maxElemSucc_le (xs : List Nat) (n : Nat) (hb : ∀ x ∈ xs, x < n) :
    maxElemSucc xs ≤ n := by
  induction xs with
  | nil => exact Nat.zero_le n
  | cons y ys ih =>
    have h1 := hb y (List.mem_cons_self y ys)
    have h2 := ih (fun x hx => hb x (List.mem_cons_of_mem y hx))
    simp only [maxElemSucc, List.foldr] at h2 ⊢
    omega

theorem sum_map_add_nat (l : List Nat) (f g : Nat → Nat) :
    (l.map (fun i => f i + g i)).sum = (l.map f).sum + (l.map g).sum := by
  induction l with
  | nil => rfl
  | cons x xs ih => simp [ih]; omega

theorem sum_map_indicator (n x : Nat) :
    ((List.range n).map (fun i => if (x == i) = true then 1 else 0)).sum =
      if x < n then 1 else 0 := by
  induction n with
  | zero => simp
  | succ m ih =>
    rw [List.range_succ, List.map_append, List.sum_append, ih]
    by_cases hx : x = m
    · subst hx
      have hlt : ¬ x < x := Nat.lt_irrefl x
      simp
    · have : (x == m) = false := by simp [hx]
      simp only [List.map_cons, List.map_nil, this, if_false, Bool.false_eq_true,
        List.sum_cons, List.sum_nil]
      by_cases h1 : x < m
      · rw [if_pos h1, if_pos (by omega)]; omega
      · rw [if_neg h1, if_neg (by omega)]; omega

theorem sum_map_count_range (xs : List Nat) (n : Nat) (hb : ∀ x ∈ xs, x < n) :
    ((List.range n).map (fun i => xs.count i)).sum = xs.length := by
  induction xs with
  | nil => simp
  | cons y ys ih =>
    have hcount : ∀ i, (y :: ys).count i = ys.count i + (if (y == i) = true then 1 else 0) := by
      intro i
      rw [List.count_cons]
    calc ((List.range n).map (fun i => (y :: ys).count i)).sum
        = ((List.range n).map (fun i => ys.count i + (if (y == i) = true then 1 else 0))).sum := by
          exact congrArg _ (List.map_congr_left (fun a _ => hcount a))
      _ = ((List.range n).map (fun i => ys.count i)).sum +
            ((List.range n).map (fun i => if (y == i) = true then 1 else 0)).sum := by
          exact sum_map_add_nat _ _ _
      _ = ys.length + 1 := by
          rw [ih (fun x hx => hb x (List.mem_cons_of_mem y hx)), sum_map_indicator,
            if_pos (hb y (List.mem_cons_self y ys))]
      _ = (y :: ys).length := by simp

theorem bincount_sum (xs : List Nat) (m : Nat) : (bincount xs m).sum = xs.length := by
  unfold bincount
  exact sum_map_count_range xs _ (fun x hx =>
    Nat.lt_of_lt_of_le (lt_maxElemSucc xs x hx) (Nat.le_max_right _ _))

theorem getD_range_map {α : Type} (l : List α) (d : α) :
    (List.range l.length).map (fun i => l.getD i d) = l := by
  induction l with
  | nil => rfl
  | cons x xs ih =>
    rw [List.length_cons, List.range_succ_eq_map, List.map_cons, List.map_map,
      List.getD_cons_zero]
    have hfun : ((fun i => (x :: xs).getD i d) ∘ Nat.succ) = (fun i => xs.getD i d) := by
      funext i
      simp [Function.comp, List.getD_cons_succ]
    rw [hfun, ih]

theorem bincount_generateHitsToEvents (counts : List Nat) :
    bincount (generateHitsToEvents counts) counts.length = counts := by
  have hmem : ∀ x ∈ generateHitsToEvents counts, x < counts.length := by
    intro x hx
    have := mem_hitsToEventsAux counts 0 x hx
    omega
  have hlen : max counts.length (maxElemSucc (generateHitsToEvents counts)) =
      counts.length :=
    Nat.max_eq_left (maxElemSucc_le _ _ hmem)
  unfold bincount
  rw [hlen]
  have hcnt : ∀ i ∈ List.range counts.length,
      (generateHitsToEvents counts).count i = counts.getD i 0 := by
    intro i hi
    have hi' := List.mem_range.mp hi
    rw [generateHitsToEvents, count_hitsToEventsAux, if_pos (by omega)]
    simp
  rw [List.map_congr_left hcnt]
  exact getD_range_map counts 0

theorem posFilter_map_sum (l : List Nat) :
    (((List.range l.length).filter (fun i => decide (0 < l.getD i 0))).map
      (fun i => l.getD i 0)).sum = l.sum := by
  induction l with
  | nil => rfl
  | cons n rest ih =>
    have hq : ∀ i ∈ List.range rest.length,
        ((fun i => decide (0 < (n :: rest).getD i 0)) ∘ Nat.succ) i =
          (fun i => decide (0 < rest.getD i 0)) i := by
      intro i _
      simp [Function.comp, List.getD_cons_succ]
    have hmap : ∀ i ∈ (List.range rest.length).filter
        (fun i => decide (0 < rest.getD i 0)),
        ((fun i => (n :: rest).getD i 0) ∘ Nat.succ) i = (fun i => rest.getD i 0) i := by
      intro i _
      simp [Function.comp, List.getD_cons_succ]
    rw [List.length_cons, List.range_succ_eq_map, List.filter_cons]
    by_cases hn : 0 < n
    · rw [if_pos (by simpa using hn), List.filter_map, List.filter_congr hq,
        List.map_cons, List.getD_cons_zero, List.map_map,
        List.map_congr_left hmap, List.sum_cons, ih, List.sum_cons]
    · rw [if_neg (by simpa using hn), List.filter_map, List.filter_congr hq,
        List.map_map, List.map_congr_left hmap, ih, List.sum_cons]
      omega

theorem posFilter_all (l : List Nat) (hpos : ∀ x ∈ l, 0 < x) :
    (List.range l.length).filter (fun i => decide (0 < l.getD i 0)) =
      List.range l.length := by
  apply List.filter_eq_self.mpr
  intro i hi
  have hi' := List.mem_range.mp hi
  rw [List.getD_eq_getElem l 0 hi']
  exact decide_eq_true (hpos _ (List.getElem_mem hi'))

theorem filterByMask_map (rows : List Hit) (p : Hit → Bool) :
    filterByMask rows (rows.map p) = rows.filter p := by
  induction rows with
  | nil => rfl
  | cons h hs ih =>
    simp only [List.map_cons, filterByMask, List.filter_cons]
    by_cases hp : p h = true
    · rw [if_pos hp, if_pos hp, ih]
    · rw [if_neg hp, if_neg hp, ih]

theorem maskFilter_eq_filter (rows : List Hit) (f : HitVar) (c : HitCond) :
    maskFilter rows f c = rows.filter (maskRow f c) := by
  rw [maskFilter, filterByMask_map]

theorem maskFilter_all (rows : List Hit) (f : HitVar) (c : HitCond)
    (hall : ∀ h ∈ rows, maskRow f c h = true) : maskFilter rows f c = rows := by
  rw [maskFilter_eq_filter]
  exact List.filter_eq_self.mpr hall

theorem length_insertBy {α : Type} (le : α → α → Bool) (a : α) (l : List α) :
    (insertBy le a l).length = l.length + 1 := by
  induction l with
  | nil => rfl
  | cons b bs ih =>
    simp only [insertBy]
    split
    · rfl
    · simp [ih]

theorem length_sortBy {α : Type} (le : α → α → Bool) (l : List α) :
    (sortBy le l).length = l.length := by
  induction l with
  | nil => rfl
  | cons a as ih => simp [sortBy, length_insertBy, ih]

theorem mem_insertBy {α : Type} (le : α → α → Bool) (a x : α) (l : List α) :
    x ∈ insertBy le a l ↔ x = a ∨ x ∈ l := by
  induction l with
  | nil => simp [insertBy]
  | cons b bs ih =>
    simp only [insertBy]
    split
    · simp [List.mem_cons]
    · simp only [List.mem_cons, ih]
      tauto

theorem mem_sortBy {α : Type} (le : α → α → Bool) (x : α) (l : List α) :
    x ∈ sortBy le l ↔ x ∈ l := by
  induction l with
  | nil => simp [sortBy]
  | cons a as ih => simp [sortBy, mem_insertBy, ih]

theorem left_le_foldl_max (l : List Int) (a : Int) : a ≤ l.foldl max a := by
  induction l generalizing a with
  | nil => exact le_refl a
  | cons x xs ih => exact le_trans (le_max_left a x) (ih (max a x))

theorem le_foldl_max_of_mem (l : List Int) (a x : Int) (hx : x ∈ l) :
    x ≤ l.foldl max a := by
  induction l generalizing a with
  | nil => simp at hx
  | cons y ys ih =>
    rcases List.mem_cons.mp hx with rfl | hx'
    · exact le_trans (le_max_right a x) (left_le_foldl_max ys (max a x))
    · exact ih (max a y) hx'

theorem foldl_max_mem (l : List Int) (a : Int) : l.foldl max a ∈ a :: l := by
  induction l generalizing a with
  | nil => exact List.mem_cons_self a []
  | cons x xs ih =>
    show List.foldl max (max a x) xs ∈ a :: x :: xs
    have hmem := ih (max a x)
    rcases List.mem_cons.mp hmem with h | h
    · rw [h]
      rcases max_choice a x with hm | hm
      · rw [hm]; exact List.mem_cons_self a (x :: xs)
      · rw [hm]; exact List.mem_cons_of_mem a (List.mem_cons_self x xs)
    · exact List.mem_cons_of_mem a (List.mem_cons_of_mem x h)

theorem npMaxInt_mem (l : List Int) (hne : l ≠ []) : npMaxInt l ∈ l := by
  cases l with
  | nil => exact absurd rfl hne
  | cons x xs => simpa [npMaxInt] using foldl_max_mem xs x

theorem le_npMaxInt (l : List Int) (x : Int) (hx : x ∈ l) : x ≤ npMaxInt l := by
  cases l with
  | nil => simp at hx
  | cons y ys =>
    rcases List.mem_cons.mp hx with rfl | hx
    · exact left_le_foldl_max ys x
    · exact le_foldl_max_of_mem ys y x hx

theorem npMaxInt_congr (l1 l2 : List Int) (h1 : l1 ≠ [])
    (hmem : ∀ x, x ∈ l1 ↔ x ∈ l2) : npMaxInt l1 = npMaxInt l2 := by
  have h2 : l2 ≠ [] := by
    cases l1 with
    | nil => exact absurd rfl h1
    | cons y ys =>
      intro hnil
      have := (hmem y).mp (List.mem_cons_self y ys)
      rw [hnil] at this
      simp at this
  exact le_antisymm
    (le_npMaxInt l2 _ ((hmem _).mp (npMaxInt_mem l1 h1)))
    (le_npMaxInt l1 _ ((hmem _).mpr (npMaxInt_mem l2 h2)))

theorem getD_map' {α β : Type} (f : α → β) (l : List α) (i : Nat) (d : α) :
    (l.map f).getD i (f d) = f (l.getD i d) := by
  induction l generalizing i with
  | nil => rfl
  | cons x xs ih => cases i <;> simp [List.getD_cons_zero, List.getD_cons_succ, ih]

theorem mem_eventToHitsAux (counts : List Nat) (first : Nat) (l : List Nat)
    (hl : l ∈ eventToHitsAux first counts) : ∃ a, l = List.range' a l.length := by
  induction counts generalizing first with
  | nil => simp [eventToHitsAux] at hl
  | cons n rest ih =>
    rcases List.mem_cons.mp hl with rfl | hl'
    · exact ⟨first, by rw [List.length_range']⟩
    · exact ih (first + n) hl'

theorem tableWeak_inv1 (s : FlatHits) (hw : TableWeak s) : Invariant1 s := by
  obtain ⟨he2h, hh2e, _, hn, _⟩ := hw
  constructor
  · intro l hl
    rw [he2h] at hl
    exact mem_eventToHitsAux _ 0 l hl
  · rw [he2h, generateEventToHits, flatten_eventToHitsAux, hn, hh2e,
      generateHitsToEvents, length_hitsToEventsAux, List.range_eq_range']

theorem tableWeak_inv2 (s : FlatHits) (hw : TableWeak s) : Invariant2 s := by
  obtain ⟨he2h, hh2e, hne, hn, _⟩ := hw
  intro h hh e he
  have hh' : h < s.event_to_n_hits.sum := by
    rw [hn, hh2e, generateHitsToEvents, length_hitsToEventsAux] at hh
    exact hh
  have he' : e < s.event_to_n_hits.length := by
    rw [hne] at he
    exact he
  rw [hh2e, generateHitsToEvents, getD_hitsToEventsAux _ _ _ _ hh',
    he2h, generateEventToHits, getD_eventToHitsAux _ _ _ he', List.mem_range'_1]
  have hiff := owner_eq_iff s.event_to_n_hits h e hh' he'
  constructor
  · intro h0
    have := hiff.mp (by omega)
    omega
  · intro hc
    have := hiff.mpr (by omega)
    omega

theorem tableWeak_inv3 (s : FlatHits) (hw : TableWeak s) : Invariant3 s := by
  obtain ⟨he2h, hh2e, hne, hn, _⟩ := hw
  refine ⟨?_, hn, hne.symm⟩
  rw [hn, hh2e, generateHitsToEvents, length_hitsToEventsAux]

theorem resetAllInternal_tableFull (s : FlatHits)
    (hlen : s.data.length = s.event_to_n_hits.sum) :
    TableFull (resetAllInternal s) := by
  have hlen2 : s.data.length = (generateHitsToEvents s.event_to_n_hits).length := by
    rw [generateHitsToEvents, length_hitsToEventsAux]
    exact hlen
  refine ⟨⟨rfl, rfl, rfl, rfl, ?_⟩, ?_⟩
  · show (generateIndexes s.data (generateHitsToEvents s.event_to_n_hits)).map
      (·.eventIndex) = generateHitsToEvents s.event_to_n_hits
    exact map_eventIndex_genIndexesAux _ _ 0 hlen2
  · show (generateIndexes s.data (generateHitsToEvents s.event_to_n_hits)).map
      (·.hitsIndex) = List.range (generateIndexes s.data
        (generateHitsToEvents s.event_to_n_hits)).length
    rw [generateIndexes, map_hitsIndex_genIndexesAux _ _ 0 hlen2,
      length_genIndexesAux _ _ 0 hlen2, List.range_eq_range']

theorem resetAllInternal_payload (s : FlatHits)
    (hlen : s.data.length = s.event_to_n_hits.sum) :
    (resetAllInternal s).data.map Hit.clearIdx = s.data.map Hit.clearIdx := by
  have hlen2 : s.data.length = (generateHitsToEvents s.event_to_n_hits).length := by
    rw [generateHitsToEvents, length_hitsToEventsAux]
    exact hlen
  exact map_clearIdx_genIndexesAux _ _ 0 hlen2

theorem resetEventToNHits_data_length (s : FlatHits) :
    s.data.length =
      (((List.range (bincount (s.data.map (·.eventIndex)) s.n_events).length).filter
        (fun e => decide (0 < (bincount (s.data.map (·.eventIndex)) s.n_events).getD e 0))).map
        (fun e => (bincount (s.data.map (·.eventIndex)) s.n_events).getD e 0)).sum := by
  rw [posFilter_map_sum, bincount_sum, List.length_map]

theorem resetEventToNHits_tableFull (s : FlatHits) :
    TableFull (resetEventToNHits s) := by
  unfold resetEventToNHits trimLookupTables
  apply resetAllInternal_tableFull
  dsimp only
  exact resetEventToNHits_data_length s

theorem resetEventToNHits_payload (s : FlatHits) :
    (resetEventToNHits s).data.map Hit.clearIdx = s.data.map Hit.clearIdx := by
  unfold resetEventToNHits trimLookupTables
  apply resetAllInternal_payload
  dsimp only
  exact resetEventToNHits_data_length s

theorem resetAllInternal_id (s : FlatHits) (hf : TableFull s) :
    resetAllInternal s = s := by
  obtain ⟨⟨he2h, hh2e, hne, hn, hev⟩, hidx⟩ := hf
  have hdata : generateIndexes s.data (generateHitsToEvents s.event_to_n_hits) =
      s.data := by
    rw [← hh2e, generateIndexes]
    apply genIndexesAux_id
    · rw [hidx, List.range_eq_range']
    · exact hev
  unfold resetAllInternal
  cases s with
  | mk data counts e2h h2e nh ne sc =>
    simp only at he2h hh2e hne hn hev hidx hdata
    simp only [FlatHits.mk.injEq]
    simp_all

theorem length_sortSlice (d : List Hit) (hs : List Nat) (f : HitVar) (asc : Bool) :
    (sortSlice d hs f asc).length = hs.length := by
  unfold sortSlice
  split
  · rw [length_sortBy, List.length_map]
  · rw [List.length_reverse, length_sortBy, List.length_map]

theorem mem_sortSlice (d : List Hit) (hs : List Nat) (f : HitVar) (asc : Bool)
    (x : Hit) (hx : x ∈ sortSlice d hs f asc) :
    x ∈ hs.map (fun h => d.getD h default) := by
  unfold sortSlice at hx
  split at hx
  · exact (mem_sortBy _ _ _).mp hx
  · exact (mem_sortBy _ _ _).mp (List.mem_reverse.mp hx)

theorem sortSlice_eventIndex_const (d : List Hit) (first n : Nat) (f : HitVar)
    (asc : Bool) (e : Nat)
    (hev : ∀ j < n, (d.getD (first + j) default).eventIndex = e) :
    (sortSlice d (List.range' first n) f asc).map (·.eventIndex) =
      List.replicate n e := by
  apply List.eq_replicate_iff.mpr
  refine ⟨?_, ?_⟩
  · rw [List.length_map, length_sortSlice, List.length_range']
  · intro b hb
    obtain ⟨x, hx, rfl⟩ := List.mem_map.mp hb
    obtain ⟨i, hi, rfl⟩ := List.mem_map.mp (mem_sortSlice d _ f asc x hx)
    obtain ⟨h1, h2⟩ := List.mem_range'_1.mp hi
    have hres := hev (i - first) (by omega)
    rw [show first + (i - first) = i by omega] at hres
    exact hres

theorem sortSpans_eventIndex (counts : List Nat) (first e0 : Nat) (d : List Hit)
    (f : HitVar) (asc : Bool)
    (hev : ∀ i < counts.sum, (d.getD (first + i) default).eventIndex =
      (hitsToEventsAux e0 counts).getD i 0) :
    (((eventToHitsAux first counts).map (fun hs => sortSlice d hs f asc)).flatten).map
      (·.eventIndex) = hitsToEventsAux e0 counts := by
  induction counts generalizing first e0 with
  | nil => rfl
  | cons n rest ih =>
    rw [eventToHitsAux, hitsToEventsAux, List.map_cons, List.flatten_cons,
      List.map_append]
    congr 1
    · apply sortSlice_eventIndex_const
      intro j hj
      have hres := hev j (by rw [List.sum_cons]; omega)
      rw [hitsToEventsAux, List.getD_append _ _ _ _ (by rwa [List.length_replicate]),
        getD_replicate', if_pos hj] at hres
      exact hres
    · apply ih (first + n) (e0 + 1)
      intro i hi
      have hres := hev (n + i) (by rw [List.sum_cons]; omega)
      rw [show first + (n + i) = first + n + i by omega] at hres
      rw [hitsToEventsAux,
        List.getD_append_right _ _ _ _ (by rw [List.length_replicate]; omega),
        List.length_replicate, show n + i - n = i by omega] at hres
      exact hres

theorem eventIndex_getD (l : List Hit) (i : Nat) :
    (l.getD i default).eventIndex = (l.map (·.eventIndex)).getD i 0 := by
  induction l generalizing i with
  | nil => rfl
  | cons x xs ih =>
    cases i with
    | zero => rfl
    | succ n => rw [List.getD_cons_succ, List.map_cons, List.getD_cons_succ, ih]

theorem sortedData_eventIndex (s : FlatHits) (f : HitVar) (asc : Bool)
    (hw : TableWeak s) :
    (sortedData s f asc).map (·.eventIndex) = s.hits_to_events := by
  obtain ⟨he2h, hh2e, hne, hn, hev⟩ := hw
  have hlen : s.n_events = s.event_to_hits.length := by
    rw [hne, he2h, generateEventToHits, length_eventToHitsAux]
  have hcomp : (fun evt => sortSlice s.data (s.event_to_hits.getD evt []) f asc) =
      ((fun hs => sortSlice s.data hs f asc) ∘
        (fun evt => s.event_to_hits.getD evt [])) := rfl
  unfold sortedData
  rw [hlen, hcomp, ← List.map_map, getD_range_map, he2h, hh2e, generateEventToHits,
    generateHitsToEvents]
  apply sortSpans_eventIndex
  intro i hi
  rw [Nat.zero_add, eventIndex_getD, hev, hh2e, generateHitsToEvents]

theorem length_sortedData (s : FlatHits) (f : HitVar) (asc : Bool)
    (hw : TableWeak s) :
    (sortedData s f asc).length = s.hits_to_events.length := by
  have h1 := sortedData_eventIndex s f asc hw
  have h2 : ((sortedData s f asc).map (·.eventIndex)).length =
      (sortedData s f asc).length := List.length_map _ _
  rw [← h2, h1]

theorem sortHits_false_def (s : FlatHits) (f : HitVar) (asc : Bool) :
    s.sortHits f asc false = { s with data := sortedData s f asc } := rfl

theorem sortHits_true_def (s : FlatHits) (f : HitVar) (asc : Bool) :
    s.sortHits f asc true =
      { s with data := generateIndexes (sortedData s f asc) s.hits_to_events } := rfl

theorem sortHits_preserves (s : FlatHits) (f : HitVar) (asc reset : Bool)
    (hw : TableWeak s) :
    TableWeak (s.sortHits f asc reset) ∧
      (reset = true → TableFull (s.sortHits f asc reset)) := by
  have hspans := sortedData_eventIndex s f asc hw
  have hdlen := length_sortedData s f asc hw
  obtain ⟨he2h, hh2e, hne, hn, hev⟩ := hw
  rcases Bool.eq_false_or_eq_true reset with rfl | rfl
  case inr =>
    rw [sortHits_false_def]
    refine ⟨⟨he2h, hh2e, hne, hn, ?_⟩, ?_⟩
    · show (sortedData s f asc).map (·.eventIndex) = s.hits_to_events
      exact hspans
    · intro hcontra
      simp at hcontra
  case inl =>
    rw [sortHits_true_def]
    have hweak : TableWeak
        { s with data := generateIndexes (sortedData s f asc) s.hits_to_events } := by
      refine ⟨he2h, hh2e, hne, hn, ?_⟩
      show (generateIndexes (sortedData s f asc) s.hits_to_events).map (·.eventIndex) =
        s.hits_to_events
      exact map_eventIndex_genIndexesAux _ _ 0 hdlen
    refine ⟨hweak, fun _ => ⟨hweak, ?_⟩⟩
    show (generateIndexes (sortedData s f asc) s.hits_to_events).map (·.hitsIndex) =
      List.range (generateIndexes (sortedData s f asc) s.hits_to_events).length
    rw [generateIndexes, map_hitsIndex_genIndexesAux _ _ 0 hdlen,
      length_genIndexesAux _ _ 0 hdlen, List.range_eq_range']

theorem npIndexAll_mem (len : Nat) (events : List Int) (idxs : List Nat)
    (hres : npIndexAll len events = some idxs) : ∀ e ∈ idxs, e < len := by
  induction events generalizing idxs with
  | nil =>
    simp only [npIndexAll, Option.some.injEq] at hres
    subst hres
    intro e he
    simp at he
  | cons i is ih =>
    unfold npIndexAll at hres
    cases hj : npIndex len i with
    | none => rw [hj] at hres; simp at hres
    | some j =>
      cases hjs : npIndexAll len is with
      | none => rw [hj, hjs] at hres; simp at hres
      | some js =>
        rw [hj, hjs] at hres
        simp only [Option.some.injEq] at hres
        subst hres
        intro e he
        rcases List.mem_cons.mp he with rfl | he'
        · unfold npIndex at hj
          split at hj
          · simp only [Option.some.injEq] at hj
            omega
          · split at hj
            · simp only [Option.some.injEq] at hj
              omega
            · simp at hj
        · exact ih js hjs e he'

theorem trimEvents_ok (s : FlatHits) (events : List Int) (idxs : List Nat)
    (hres : npIndexAll s.event_to_hits.length events = some idxs)
    (hne : idxs ≠ []) :
    s.trimEvents events =
      .ok (trimLookupTables { s with data := trimmedData s idxs } idxs) := by
  have hemp : idxs.isEmpty = false := by
    cases idxs with
    | nil => exact absurd rfl hne
    | cons a as => rfl
  unfold FlatHits.trimEvents
  rw [hres]
  dsimp only
  rw [if_neg (by simp [hemp])]

theorem trimEvents_error (s : FlatHits) (events : List Int)
    (hres : npIndexAll s.event_to_hits.length events = none) :
    s.trimEvents events = .error ("IndexError", s) := by
  unfold FlatHits.trimEvents
  rw [hres]

theorem trimEvents_empty_error (s : FlatHits) (events : List Int)
    (hres : npIndexAll s.event_to_hits.length events = some []) :
    s.trimEvents events =
      .error ("ValueError: need at least one array to concatenate", s) := by
  unfold FlatHits.trimEvents
  rw [hres]
  rfl

theorem trimEvents_data_length (s : FlatHits) (hw : TableWeak s) (idxs : List Nat)
    (hvalid : ∀ e ∈ idxs, e < s.event_to_hits.length) :
    (trimmedData s idxs).length =
      (idxs.map (fun e => s.event_to_n_hits.getD e 0)).sum := by
  obtain ⟨he2h, hh2e, hne, hn, hev⟩ := hw
  rw [trimmedData, List.length_map, List.length_flatten, List.map_map]
  congr 1
  apply List.map_congr_left
  intro e he
  have he' : e < s.event_to_n_hits.length := by
    have h1 := hvalid e he
    rwa [he2h, generateEventToHits, length_eventToHitsAux] at h1
  show (s.event_to_hits.getD e []).length = s.event_to_n_hits.getD e 0
  rw [he2h, generateEventToHits, getD_eventToHitsAux _ _ _ he', List.length_range']

theorem trimLookupTables_tableFull (s : FlatHits) (idxs : List Nat)
    (hlen : s.data.length = (idxs.map (fun e => s.event_to_n_hits.getD e 0)).sum) :
    TableFull (trimLookupTables s idxs) := by
  unfold trimLookupTables
  apply resetAllInternal_tableFull
  dsimp only
  exact hlen

theorem trimLookupTables_payload (s : FlatHits) (idxs : List Nat)
    (hlen : s.data.length = (idxs.map (fun e => s.event_to_n_hits.getD e 0)).sum) :
    (trimLookupTables s idxs).data.map Hit.clearIdx = s.data.map Hit.clearIdx := by
  unfold trimLookupTables
  apply resetAllInternal_payload
  dsimp only
  exact hlen

theorem trimLookupTables_counts (s : FlatHits) (idxs : List Nat) :
    (trimLookupTables s idxs).event_to_n_hits =
      idxs.map (fun e => s.event_to_n_hits.getD e 0) := rfl

theorem trimmedData_eq_blocks (s : FlatHits) (idxs : List Nat) :
    trimmedData s idxs = (idxs.map (fun e => blockOf s e)).flatten := by
  rw [trimmedData, List.map_flatten, List.map_map]
  rfl

theorem trimHits_ok (s : FlatHits) (f : HitVar) (c : HitCond)
    (hc : (c.isTrivial && !c.invert) = false) :
    s.trimHits f c =
      .ok (resetEventToNHits { s with data := maskFilter s.data f c }) := by
  unfold FlatHits.trimHits
  rw [if_neg (by simp [hc])]

theorem trimHits_error (s : FlatHits) (f : HitVar) (c : HitCond)
    (hc : (c.isTrivial && !c.invert) = true) :
    s.trimHits f c = .error ("IndexError: float index array", s) := by
  unfold FlatHits.trimHits
  rw [if_pos hc]

theorem addHits_true_def (s : FlatHits) (hits : List Hit) :
    s.addHits hits true = .ok (resetEventToNHits
      { s with data := sortBy eventTimeLe (s.data ++ hits) }) := rfl

theorem addHits_false_def (s : FlatHits) (hits : List Hit) :
    s.addHits hits false = .error ("AttributeError: time_name",
      { s with data := s.data ++ hits }) := rfl

theorem resetEventToNHits_id (s : FlatHits) (hf : TableFull s)
    (hpos : ∀ n ∈ s.event_to_n_hits, 0 < n) : resetEventToNHits s = s := by
  obtain ⟨⟨he2h, hh2e, hne, hn, hev⟩, hidx⟩ := hf
  have hbc : bincount (s.data.map (·.eventIndex)) s.n_events = s.event_to_n_hits := by
    rw [hev, hh2e, hne, bincount_generateHitsToEvents]
  unfold resetEventToNHits
  rw [hbc, posFilter_all _ hpos]
  unfold trimLookupTables
  dsimp only
  rw [getD_range_map]
  show resetAllInternal s = s
  exact resetAllInternal_id s ⟨⟨he2h, hh2e, hne, hn, hev⟩, hidx⟩

theorem tableFull_inv4 (s : FlatHits) (hf : TableFull s) : Invariant4 s :=
  ⟨hf.2, hf.1.2.2.2.2⟩

theorem applyOp_preserves (s : FlatHits) (op : Op) (s' : FlatHits)
    (hw : TableWeak s) (hok : applyOp op s = .ok s') :
    TableWeak s' ∧ (op.resetsIndexes = true → TableFull s') := by
  cases op with
  | trimHits f c =>
    by_cases hc : (c.isTrivial && !c.invert) = true
    · rw [show applyOp (.trimHits f c) s = s.trimHits f c from rfl,
        trimHits_error s f c hc] at hok
      exact absurd hok (by simp)
    · have hc' : (c.isTrivial && !c.invert) = false := by simpa using hc
      rw [show applyOp (.trimHits f c) s = s.trimHits f c from rfl,
        trimHits_ok s f c hc'] at hok
      injection hok with h
      subst h
      have hfull := resetEventToNHits_tableFull
        { s with data := maskFilter s.data f c }
      exact ⟨hfull.1, fun _ => hfull⟩
  | trimEvents events =>
    cases hres : npIndexAll s.event_to_hits.length events with
    | none =>
      rw [show applyOp (.trimEvents events) s = s.trimEvents events from rfl,
        trimEvents_error s events hres] at hok
      exact absurd hok (by simp)
    | some idxs =>
      cases idxs with
      | nil =>
        rw [show applyOp (.trimEvents events) s = s.trimEvents events from rfl,
          trimEvents_empty_error s events hres] at hok
        exact absurd hok (by simp)
      | cons i is =>
        rw [show applyOp (.trimEvents events) s = s.trimEvents events from rfl,
          trimEvents_ok s events (i :: is) hres (by simp)] at hok
        injection hok with h
        subst h
        have hvalid := npIndexAll_mem _ _ _ hres
        have hfull := trimLookupTables_tableFull
          { s with data := trimmedData s (i :: is) } (i :: is)
          (trimEvents_data_length s hw (i :: is) hvalid)
        exact ⟨hfull.1, fun _ => hfull⟩
  | sortHits f asc reset =>
    rw [show applyOp (.sortHits f asc reset) s = .ok (s.sortHits f asc reset) from rfl]
      at hok
    injection hok with h
    subst h
    have hres := sortHits_preserves s f asc reset hw
    exact ⟨hres.1, hres.2⟩
  | addHits hits hasTime =>
    cases hasTime with
    | false =>
      rw [show applyOp (.addHits hits false) s = s.addHits hits false from rfl,
        addHits_false_def s hits] at hok
      exact absurd hok (by simp)
    | true =>
      rw [show applyOp (.addHits hits true) s = s.addHits hits true from rfl,
        addHits_true_def s hits] at hok
      injection hok with h
      subst h
      have hfull := resetEventToNHits_tableFull
        { s with data := sortBy eventTimeLe (s.data ++ hits) }
      exact ⟨hfull.1, fun _ => hfull⟩

instance {ε α : Type} [DecidableEq ε] [DecidableEq α] :
    DecidableEq (Except ε α) := fun x y =>
  match x, y with
  | .error a, .error b =>
    if h : a = b then .isTrue (by rw [h])
    else .isFalse (fun hc => by injection hc with h2; exact h h2)
  | .ok a, .ok b =>
    if h : a = b then .isTrue (by rw [h])
    else .isFalse (fun hc => by injection hc with h2; exact h h2)
  | .error _, .ok _ => .isFalse (fun hc => by injection hc)
  | .ok _, .error _ => .isFalse (fun hc => by injection hc)

instance (s : FlatHits) : Decidable (Invariant2 s) := by
  unfold Invariant2; infer_instance

instance (s : FlatHits) : Decidable (Invariant3 s) := by
  unfold Invariant3; infer_instance

instance (s : FlatHits) : Decidable (Invariant4event s) := by
  unfold Invariant4event; infer_instance

instance (s : FlatHits) : Decidable (Invariant4 s) := by
  unfold Invariant4; infer_instance

/-- A one-event table with two hits whose times are out of order (times 5
and 3), used to exercise sort_hits. -/
def exTableSort : FlatHits :=
  { data := [⟨1, 5, 0, 0, 0, 0, 0⟩, ⟨1, 3, 0, 0, 0, 1, 0⟩]
    event_to_n_hits := [2]
    event_to_hits := [[0, 1]]
    hits_to_events := [0, 0]
    n_hits := 2
    n_events := 1
    signal_coding := 1 }

/-- A two-event table whose second event has zero hits. -/
def exTableEmptyEvt : FlatHits :=
  { data := [⟨1, 0, 0, 0, 0, 0, 0⟩]
    event_to_n_hits := [1, 0]
    event_to_hits := [[0], []]
    hits_to_events := [0]
    n_hits := 1
    n_events := 2
    signal_coding := 1 }

/-- A two-event table with one hit per event, distinguishable by energy. -/
def exTableTwo : FlatHits :=
  { data := [⟨1, 0, 10, 0, 0, 0, 0⟩, ⟨1, 0, 20, 0, 0, 1, 1⟩]
    event_to_n_hits := [1, 1]
    event_to_hits := [[0], [1]]
    hits_to_events := [0, 1]
    n_hits := 2
    n_events := 2
    signal_coding := 1 }

/-- C2: _generate_lookup_tables on event_to_n_hits = [3, 0, 2] produces
hits_to_events = [0,0,0,2,2] and event_to_hits = [[0,1,2], [], [3,4]], and
_generate_counters then reports N = 5 hits (the length of hits_to_events)
and E = 3 events (the length of event_to_n_hits). -/
theorem c2_lookup_tables_example :
    generateHitsToEvents [3, 0, 2] = [0, 0, 0, 2, 2] ∧
    generateEventToHits [3, 0, 2] = [[0, 1, 2], [], [3, 4]] ∧
    (generateHitsToEvents [3, 0, 2]).length = 5 ∧
    ([3, 0, 2] : List Nat).length = 3 := by decide

/-- C5: filter_hits is a pure function of its input rows (the embedding
returns a value and touches no state), and supplied conditions are combined
by logical AND with invert negating the combined mask; but with no condition
at all (and invert false) it does not return the rows unchanged: _get_mask's
initial np.ones array is float64, and indexing the record array with a float
array is not boolean masking (IndexError on numpy >= 1.12; on older numpy a
deprecated integer cast selects row 1 repeatedly) - shown here on a concrete
two-row table, together with the AND semantics and invert on genuine
conditions. -/
theorem c5_filter_hits_no_condition :
    FlatHits.filterHits exTableTwo.data .time ⟨none, none, none, false⟩ =
      .error "IndexError: float index array" ∧
    FlatHits.filterHits exTableTwo.data .edep ⟨some [10, 20], some 15, none, false⟩ =
      .ok [⟨1, 0, 20, 0, 0, 1, 1⟩] ∧
    FlatHits.filterHits exTableTwo.data .edep ⟨some [10, 20], some 15, none, true⟩ =
      .ok [⟨1, 0, 10, 0, 0, 0, 0⟩] := by decide

/-- The signal-side source table of the merger scenario: one event with one
hit at geometry id 7 carrying energy 2. -/
def exSigT : FlatHits :=
  { data := [⟨1, 0, 2, 7, 0, 0, 0⟩]
    event_to_n_hits := [1]
    event_to_hits := [[0]]
    hits_to_events := [0]
    n_hits := 1
    n_events := 1
    signal_coding := 1 }

/-- The background-side source table of the merger scenario: one event with
one hit at geometry id 7 carrying energy 3. -/
def exBkgT : FlatHits :=
  { data := [⟨0, 0, 3, 7, 0, 0, 0⟩]
    event_to_n_hits := [1]
    event_to_hits := [[0]]
    hits_to_events := [0]
    n_hits := 1
    n_events := 1
    signal_coding := 1 }

/-- The merger over the two one-event tables with the default cydet tag. -/
def exMerger : Merger :=
  { sig := exSigT, bkg := exBkgT, this_class := "cydet" }

/-- C9: on the two one-event tables with a hit at geometry id 7 and energies
2 and 3, the energy field (summed policy) merges element-wise to 5 without
touching either source; but the minimum policy does not return the
element-wise minimum: the code calls np.amin(sig_measure, bkg_measure),
which passes the background array as the axis argument and raises TypeError
(np.minimum was intended), so the time field (the one minned property)
errors instead. -/
theorem c9_merger_measurement :
    exMerger.getMeasurement 0 .edep = .ok (some [5]) ∧
    exMerger.getMeasurement 0 .time =
      .error "TypeError: np.amin axis argument is an array" := by decide

/-- C1 (amended): starting from a table in the canonical state the
constructor establishes, every successful trim_hits, trim_events and
add_hits call, and every sort_hits call, returns a table that is again
canonical (so any sequence of such calls stays canonical) and satisfies
EventIndex invariants 1-3 and the event_index half of invariant 4; the
hit_index half of invariant 4 additionally holds whenever the operation
rewrites the index columns, i.e. for every operation except sort_hits with
reset_index=False (which permutes rows together with their stale hit_index
values - the unamended claim fails there, see the counterexample). -/
theorem c1_invariant_preservation (s : FlatHits) (op : Op) (s' : FlatHits)
    (hw : TableWeak s) (hok : applyOp op s = .ok s') :
    (TableWeak s' ∧ Invariant1 s' ∧ Invariant2 s' ∧ Invariant3 s' ∧
      Invariant4event s') ∧
    (op.resetsIndexes = true → Invariant4 s') := by
  obtain ⟨hweak, hfull⟩ := applyOp_preserves s op s' hw hok
  exact ⟨⟨hweak, tableWeak_inv1 s' hweak, tableWeak_inv2 s' hweak,
    tableWeak_inv3 s' hweak, hweak.2.2.2.2⟩,
    fun hr => tableFull_inv4 s' (hfull hr)⟩

/-- The operation used by the invariant-preservation witness: a trim_hits
keeping the signal hits. -/
def exOp : Op := .trimHits .hitType ⟨some [1], none, none, false⟩

/-- The table produced by running the witness operation on exTableSort. -/
def exTrimmed : FlatHits :=
  resetEventToNHits
    { exTableSort with
        data := maskFilter exTableSort.data .hitType ⟨some [1], none, none, false⟩ }

theorem c1_invariant_preservation_witness :
    (TableWeak exTrimmed ∧ Invariant1 exTrimmed ∧ Invariant2 exTrimmed ∧
      Invariant3 exTrimmed ∧ Invariant4event exTrimmed) ∧
    (exOp.resetsIndexes = true → Invariant4 exTrimmed) :=
  c1_invariant_preservation exTableSort exOp exTrimmed (by decide) rfl

/-- C1 counterexample: on a valid one-event table whose two hits have
out-of-order times, sort_hits(time, ascending, reset_index=False) succeeds
but leaves a table violating invariant 4: the rows were permuted inside the
event and carried their old hit_index values along. -/
theorem c1_counterexample :
    TableWeak exTableSort ∧ Invariant4 exTableSort ∧
    applyOp (.sortHits .time true false) exTableSort =
      .ok (exTableSort.sortHits .time true false) ∧
    ¬ Invariant4 (exTableSort.sortHits .time true false) := by decide

/-- C3 (amended): trim_hits with a genuine condition whose mask accepts
every row leaves the whole table state unchanged, provided every event has
at least one hit.  (When some event has zero hits the unamended claim
fails: _reset_event_to_n_hits drops every zero-count event - including
events that were already empty before the call - shrinking the event count
and renumbering the event_index column; see the counterexample.) -/
theorem c3_trim_hits_accept_all (s : FlatHits) (f : HitVar) (c : HitCond)
    (hf : TableFull s)
    (hc : (c.isTrivial && !c.invert) = false)
    (hall : ∀ h ∈ s.data, maskRow f c h = true)
    (hpos : ∀ n ∈ s.event_to_n_hits, 0 < n) :
    s.trimHits f c = .ok s := by
  rw [trimHits_ok s f c hc, maskFilter_all s.data f c hall]
  show Except.ok (resetEventToNHits s) = Except.ok s
  rw [resetEventToNHits_id s hf hpos]

theorem c3_trim_hits_accept_all_witness :
    exTableSort.trimHits .time ⟨none, some (-1), none, false⟩ = .ok exTableSort :=
  c3_trim_hits_accept_all exTableSort .time ⟨none, some (-1), none, false⟩
    (by decide) (by decide) (by decide) (by decide)

/-- C3 counterexample: on a valid table with event counts [1, 0] (event 1
empty), trim_hits with an all-accepting condition keeps every row but drops
the empty event: the event count shrinks from 2 to 1, so the call is not a
no-op on the event count. -/
theorem c3_counterexample :
    TableFull exTableEmptyEvt ∧
    (∀ h ∈ exTableEmptyEvt.data,
      maskRow .time ⟨none, some (-1), none, false⟩ h = true) ∧
    exTableEmptyEvt.n_events = 2 ∧
    (exTableEmptyEvt.trimHits .time ⟨none, some (-1), none, false⟩).toOption.map
      (·.n_events) = some 1 := by decide

/-- C4 (amended): for every non-empty list of event indices that resolves
under numpy indexing, trim_events keeps exactly the hits of the listed
events, but concatenated in the order the events appear in the argument (an
event listed earlier comes earlier, even if that reverses table order - the
unamended "original table order" claim fails, see the counterexample);
event_to_n_hits becomes the argument-ordered selection of the old counts
and the EventIndex is rebuilt, restoring the full canonical state.  An
empty list of event indices instead fails before any mutation:
np.concatenate raises ValueError over the empty selection of hit blocks
(final conjunct). -/
theorem c4_trim_events_spec (s : FlatHits) (events : List Int) (idxs : List Nat)
    (hw : TableWeak s)
    (hres : npIndexAll s.event_to_hits.length events = some idxs)
    (hne : idxs ≠ []) :
    s.trimEvents events =
      .ok (trimLookupTables { s with data := trimmedData s idxs } idxs) ∧
    (trimLookupTables { s with data := trimmedData s idxs } idxs).event_to_n_hits =
      idxs.map (fun e => s.event_to_n_hits.getD e 0) ∧
    (trimLookupTables { s with data := trimmedData s idxs } idxs).data.map
        Hit.clearIdx =
      ((idxs.map (fun e => blockOf s e)).flatten).map Hit.clearIdx ∧
    TableFull (trimLookupTables { s with data := trimmedData s idxs } idxs) ∧
    s.trimEvents [] =
      .error ("ValueError: need at least one array to concatenate", s) := by
  have hvalid := npIndexAll_mem _ _ _ hres
  have hlen := trimEvents_data_length s hw idxs hvalid
  refine ⟨trimEvents_ok s events idxs hres hne, trimLookupTables_counts _ idxs,
    ?_, ?_, trimEvents_empty_error s [] rfl⟩
  · rw [← trimmedData_eq_blocks]
    exact trimLookupTables_payload { s with data := trimmedData s idxs } idxs hlen
  · exact trimLookupTables_tableFull { s with data := trimmedData s idxs } idxs hlen

theorem c4_trim_events_spec_witness :
    exTableTwo.trimEvents [1, 0] =
      .ok (trimLookupTables { exTableTwo with data := trimmedData exTableTwo [1, 0] }
        [1, 0]) ∧
    (trimLookupTables { exTableTwo with data := trimmedData exTableTwo [1, 0] }
        [1, 0]).event_to_n_hits =
      [1, 0].map (fun e => exTableTwo.event_to_n_hits.getD e 0) ∧
    (trimLookupTables { exTableTwo with data := trimmedData exTableTwo [1, 0] }
        [1, 0]).data.map Hit.clearIdx =
      (([1, 0].map (fun e => blockOf exTableTwo e)).flatten).map Hit.clearIdx ∧
    TableFull (trimLookupTables
      { exTableTwo with data := trimmedData exTableTwo [1, 0] } [1, 0]) ∧
    exTableTwo.trimEvents [] =
      .error ("ValueError: need at least one array to concatenate", exTableTwo) :=
  c4_trim_events_spec exTableTwo [1, 0] [1, 0] (by decide) (by decide) (by decide)

/-- C4 counterexample: on a valid two-event table whose rows carry energies
[10, 20] in table order, trim_events([1, 0]) succeeds and returns the rows
reordered to [20, 10] - the argument's order, not the original table
order. -/
theorem c4_counterexample :
    TableFull exTableTwo ∧
    exTableTwo.data.map (·.edep) = [10, 20] ∧
    (exTableTwo.trimEvents [1, 0]).toOption.map (fun s' => s'.data.map (·.edep)) =
      some [20, 10] := by decide

/-- C6 (amended): trim_hits, trim_events and sort_hits leave the table in
its prior state when they fail (their failure points all come before any
mutation: trim_hits's float-mask indexing error, trim_events's
out-of-range index error and its ValueError over an empty event selection,
while sort_hits cannot fail at all in the embedded fragment); but add_hits
does not: when the in-place sort raises because the object has no
time_name attribute (the plain FlatHits case), data has already been
replaced by the unsorted concatenation while every lookup table keeps its
prior value - the unamended all-operation claim fails, see the
counterexample. -/
theorem c6_failure_atomicity (s : FlatHits) :
    (∀ f c es, applyOp (.trimHits f c) s = .error es → es.2 = s) ∧
    (∀ events es, applyOp (.trimEvents events) s = .error es → es.2 = s) ∧
    (∀ f asc reset es, applyOp (.sortHits f asc reset) s ≠ .error es) ∧
    (∀ hits es, applyOp (.addHits hits false) s = .error es →
      es.2 = { s with data := s.data ++ hits }) := by
  refine ⟨?_, ?_, ?_, ?_⟩
  · intro f c es herr
    by_cases hc : (c.isTrivial && !c.invert) = true
    · rw [show applyOp (.trimHits f c) s = s.trimHits f c from rfl,
        trimHits_error s f c hc] at herr
      injection herr with h
      rw [← h]
    · rw [show applyOp (.trimHits f c) s = s.trimHits f c from rfl,
        trimHits_ok s f c (by simpa using hc)] at herr
      exact absurd herr (by simp)
  · intro events es herr
    cases hres : npIndexAll s.event_to_hits.length events with
    | none =>
      rw [show applyOp (.trimEvents events) s = s.trimEvents events from rfl,
        trimEvents_error s events hres] at herr
      injection herr with h
      rw [← h]
    | some idxs =>
      cases idxs with
      | nil =>
        rw [show applyOp (.trimEvents events) s = s.trimEvents events from rfl,
          trimEvents_empty_error s events hres] at herr
        injection herr with h
        rw [← h]
      | cons i is =>
        rw [show applyOp (.trimEvents events) s = s.trimEvents events from rfl,
          trimEvents_ok s events (i :: is) hres (by simp)] at herr
        exact absurd herr (by simp)
  · intro f asc reset es herr
    rw [show applyOp (.sortHits f asc reset) s =
      .ok (s.sortHits f asc reset) from rfl] at herr
    exact absurd herr (by simp)
  · intro hits es herr
    rw [show applyOp (.addHits hits false) s = s.addHits hits false from rfl,
      addHits_false_def s hits] at herr
    injection herr with h
    rw [← h]

theorem c6_failure_atomicity_witness :
    ("IndexError: float index array", exTableTwo).2 = exTableTwo :=
  (c6_failure_atomicity exTableTwo).1 .time ⟨none, none, none, false⟩
    ("IndexError: float index array", exTableTwo) (by decide)

/-- The partially mutated state left behind by the failing add_hits of the
counterexample: the appended row is present, all lookup tables are stale. -/
def exBrokenAdd : FlatHits :=
  { exTableTwo with data := exTableTwo.data ++ [⟨1, 0, 30, 0, 0, 0, 0⟩] }

/-- C6 counterexample: on a valid table, add_hits fails (no time_name on a
plain FlatHits) yet the state it leaves behind differs from the prior state
- the data column set was already replaced by the concatenation - and that
left-behind state violates invariant 4. -/
theorem c6_counterexample :
    TableFull exTableTwo ∧
    exTableTwo.addHits [⟨1, 0, 30, 0, 0, 0, 0⟩] false =
      .error ("AttributeError: time_name", exBrokenAdd) ∧
    exBrokenAdd ≠ exTableTwo ∧
    ¬ Invariant4 exBrokenAdd := by decide

/-- C7 (amended): on a canonical table with E events, get_events with a
single integer selector fails with an index error exactly when the index
falls outside [-E, E); indices in [-E, 0) do not fail - numpy indexing
wraps them around, returning the hits of event E+i - so the unamended
claim that every index outside [0, E) fails is wrong, see the
counterexample. -/
theorem c7_get_events_bounds (s : FlatHits) (i : Int) (hw : TableWeak s) :
    (((s.n_events : Int) ≤ i ∨ i < -(s.n_events : Int)) →
      s.getEventsSingle i = .error "IndexError") ∧
    ((-(s.n_events : Int) ≤ i ∧ i < 0) →
      s.getEventsSingle i = s.getEventsSingle (i + s.n_events)) := by
  obtain ⟨he2h, hh2e, hne, hn, hev⟩ := hw
  have hlen : s.event_to_hits.length = s.n_events := by
    rw [he2h, generateEventToHits, length_eventToHitsAux, hne]
  constructor
  · intro hout
    unfold FlatHits.getEventsSingle npIndex
    rw [hlen, if_neg (by omega), if_neg (by omega)]
  · intro hin
    unfold FlatHits.getEventsSingle npIndex
    rw [hlen, if_neg (by omega), if_pos (by omega), if_pos (by omega)]

theorem c7_get_events_bounds_witness :
    exTableTwo.getEventsSingle 5 = .error "IndexError" ∧
    exTableTwo.getEventsSingle (-1) =
      exTableTwo.getEventsSingle (-1 + exTableTwo.n_events) :=
  ⟨(c7_get_events_bounds exTableTwo 5 (by decide)).1 (by decide),
   (c7_get_events_bounds exTableTwo (-1) (by decide)).2 (by decide)⟩

/-- C7 counterexample: on a valid two-event table, the out-of-[0,E) index
-1 does not fail: it returns the hit rows of the last event. -/
theorem c7_counterexample :
    TableWeak exTableTwo ∧ exTableTwo.n_events = 2 ∧
    exTableTwo.getEventsSingle (-1) =
      .ok [⟨1, 0, 20, 0, 0, 1, 1⟩] := by decide

theorem beq_eq_decide_int (a b : Int) : (a == b) = decide (a = b) := by
  by_cases h : a = b <;> simp [h]

theorem maskRow_values_single (f : HitVar) (v : Int) (h : Hit) :
    maskRow f ⟨some [v], none, none, false⟩ h = decide (h.get f = v) := by
  simp [maskRow, List.contains, beq_eq_decide_int]

theorem mem_maskFilter_values (rows : List Hit) (f : HitVar) (vs : List Int)
    (h : Hit) (hmem : h ∈ maskFilter rows f ⟨some vs, none, none, false⟩) :
    h.get f ∈ vs := by
  rw [maskFilter_eq_filter] at hmem
  have hmask := List.of_mem_filter hmem
  simp only [maskRow] at hmask
  simpa using hmask

theorem mem_cthActiveIds (v : Int) (hv : v ∈ cthActiveIds) : 0 ≤ v ∧ v < 128 := by
  rw [cthActiveIds] at hv
  obtain ⟨k, hk, rfl⟩ := List.mem_map.mp hv
  have hk' := List.mem_range.mp hk
  have h0 : (Int.ofNat k) = (k : Int) := rfl
  rw [h0]
  omega

theorem clearIdx_flatId (a b : Hit) (hc : a.clearIdx = b.clearIdx) :
    a.flatId = b.flatId := by
  have := congrArg Hit.flatId hc
  simpa [Hit.clearIdx] using this

theorem resetEventToNHits_mem_payload (s : FlatHits) (h : Hit)
    (hmem : h ∈ (resetEventToNHits s).data) :
    ∃ h0 ∈ s.data, h.clearIdx = h0.clearIdx := by
  unfold resetEventToNHits trimLookupTables resetAllInternal at hmem
  dsimp only at hmem
  exact mem_genIndexesAux _ _ 0 h hmem

/-- C10: after a hodoscope table is finalized, every hit remaining in its
data carries a flat geometry id inside [0, 128) - the trim on
values=range(0, 64*2) silently removed the hits in passive volumes - and
up_data and down_data are exactly the rows of the remaining data whose
position-tag column equals 1 and 0 respectively. -/
theorem c10_cth_finalize (s : FlatHits) :
    (∀ h ∈ (cthFinalize s).base.data, 0 ≤ h.flatId ∧ h.flatId < 128) ∧
    (cthFinalize s).up_data =
      (cthFinalize s).base.data.filter (fun h => decide (h.zPos = 1)) ∧
    (cthFinalize s).down_data =
      (cthFinalize s).base.data.filter (fun h => decide (h.zPos = 0)) := by
  refine ⟨?_, ?_, ?_⟩
  · intro h hmem
    have hmem' : h ∈ (resetEventToNHits
        { FlatHits.sortHits { s with data := generateIndexes s.data s.hits_to_events }
            .time true true with
          data := maskFilter (FlatHits.sortHits
            { s with data := generateIndexes s.data s.hits_to_events }
            .time true true).data .flatId
            ⟨some cthActiveIds, none, none, false⟩ }).data := hmem
    obtain ⟨h0, hh0, hc⟩ := resetEventToNHits_mem_payload _ h hmem'
    have hin : h0.get .flatId ∈ cthActiveIds := mem_maskFilter_values _ _ _ h0 hh0
    have hflat := clearIdx_flatId h h0 hc
    have := mem_cthActiveIds h0.flatId hin
    omega
  · show maskFilter (cthFinalize s).base.data .zPos ⟨some [1], none, none, false⟩ =
      (cthFinalize s).base.data.filter (fun h => decide (h.zPos = 1))
    rw [maskFilter_eq_filter]
    exact List.filter_congr (fun h _ => maskRow_values_single .zPos 1 h)
  · show maskFilter (cthFinalize s).base.data .zPos ⟨some [0], none, none, false⟩ =
      (cthFinalize s).base.data.filter (fun h => decide (h.zPos = 0))
    rw [maskFilter_eq_filter]
    exact List.filter_congr (fun h _ => maskRow_values_single .zPos 0 h)

/-- The value computed by get_sig_wires for one in-range event: np.unique of
the flat geometry ids of the event's rows passing the signal-type filter. -/
def sigWiresOf (c : CDC) (e : Nat) : List Int :=
  npUnique ((maskFilter (blockOf c.cydet e) .hitType
    ⟨some [c.cydet.signal_coding], none, none, false⟩).map (·.flatId))

theorem npIndex_ofNat (len : Nat) (e : Nat) (he : e < len) :
    npIndex len (Int.ofNat e) = some e := by
  unfold npIndex
  have hcond : 0 ≤ Int.ofNat e ∧ Int.ofNat e < (len : Int) := by
    refine ⟨Int.ofNat_nonneg e, ?_⟩
    rw [show (Int.ofNat e) = (e : Int) from rfl]
    exact_mod_cast he
  rw [if_pos hcond, show (Int.ofNat e).toNat = e from rfl]

theorem npIndexAll_ofNat (len : Nat) (l : List Nat) (hl : ∀ e ∈ l, e < len) :
    npIndexAll len (l.map Int.ofNat) = some l := by
  induction l with
  | nil => rfl
  | cons e es ih =>
    rw [List.map_cons]
    show (match npIndex len (Int.ofNat e), npIndexAll len (es.map Int.ofNat) with
      | some j, some js => some (j :: js)
      | _, _ => none) = some (e :: es)
    rw [npIndex_ofNat len e (hl e (List.mem_cons_self e es)),
      ih (fun x hx => hl x (List.mem_cons_of_mem e hx))]

theorem sigWires_ok (c : CDC) (e : Nat) (he : e < c.cydet.event_to_hits.length) :
    c.sigWires (Int.ofNat e) = .ok (sigWiresOf c e) := by
  unfold CDC.sigWires FlatHits.getSignalHitsSingle FlatHits.getEventsSingle
  rw [npIndex_ofNat c.cydet.event_to_hits.length e he]
  rfl

theorem collectSigWires_ok (c : CDC) (l : List Nat)
    (hl : ∀ e ∈ l, e < c.cydet.event_to_hits.length) :
    collectSigWires c l = .ok (l.map (sigWiresOf c)) := by
  induction l with
  | nil => rfl
  | cons e es ih =>
    rw [List.map_cons]
    show (match c.sigWires (Int.ofNat e), collectSigWires c es with
      | .ok w, .ok ws => Except.ok (w :: ws)
      | .error err, _ => .error err
      | _, .error err => .error err) =
      .ok (sigWiresOf c e :: es.map (sigWiresOf c))
    rw [sigWires_ok c e (hl e (List.mem_cons_self e es)),
      ih (fun x hx => hl x (List.mem_cons_of_mem e hx))]

theorem mem_npUnique (l : List Int) (x : Int) : x ∈ npUnique l ↔ x ∈ l := by
  rw [npUnique, List.mem_dedup, mem_sortBy]

theorem zip_map_filter_fst {α : Type} (l : List α) (g : α → Int) (L : Int) :
    ((l.zip (l.map g)).filter (fun p => decide (L ≤ p.2))).map
      (fun p => p.1) = l.filter (fun e => decide (L ≤ g e)) := by
  induction l with
  | nil => rfl
  | cons x xs ih =>
    simp only [List.map_cons, List.zip_cons_cons, List.filter_cons]
    by_cases hx : L ≤ g x
    · rw [if_pos (by simpa using hx), if_pos (by simpa using hx), List.map_cons, ih]
    · rw [if_neg (by simpa using hx), if_neg (by simpa using hx), ih]

theorem codeMaxLayer_eq_deepest (c : CDC) (e : Nat) :
    (if (sigWiresOf c e).length ≠ 0 then
      npMaxInt ((sigWiresOf c e).map c.geom.point_layers) else (-1 : Int)) =
      deepestSignalLayer c e := by
  have hfil : maskFilter (blockOf c.cydet e) .hitType
      ⟨some [c.cydet.signal_coding], none, none, false⟩ =
      (blockOf c.cydet e).filter
        (fun h => decide (h.hitType = c.cydet.signal_coding)) := by
    rw [maskFilter_eq_filter]
    apply List.filter_congr
    intro h _
    rw [maskRow_values_single]
    rfl
  unfold sigWiresOf deepestSignalLayer signalLayers
  rw [hfil]
  set sig := (blockOf c.cydet e).filter
    (fun h => decide (h.hitType = c.cydet.signal_coding)) with hsig
  cases hcase : sig with
  | nil => rfl
  | cons h0 hs =>
    rw [← hcase]
    have hmem0 : h0.flatId ∈ sig.map (·.flatId) := by
      rw [hcase]
      exact List.mem_map.mpr ⟨h0, List.mem_cons_self h0 hs, rfl⟩
    have hne1 : npUnique (sig.map (·.flatId)) ≠ [] := by
      intro hnil
      have hm := (mem_npUnique (sig.map (·.flatId)) h0.flatId).mpr hmem0
      rw [hnil] at hm
      simp at hm
    have hlen1 : (npUnique (sig.map (·.flatId))).length ≠ 0 := by
      intro h0len
      exact hne1 (List.length_eq_zero.mp h0len)
    have hemp : ¬ ((sig.map (fun h => c.geom.point_layers h.flatId)).isEmpty = true) := by
      rw [hcase]
      simp
    rw [if_pos hlen1, if_neg hemp]
    apply npMaxInt_congr
    · cases hnp : npUnique (sig.map (·.flatId)) with
      | nil => exact absurd hnp hne1
      | cons y ys => simp [hnp]
    · intro x
      simp only [List.mem_map, mem_npUnique]
      constructor
      · rintro ⟨a, ⟨h, hh, rfl⟩, rfl⟩
        exact ⟨h, hh, rfl⟩
      · rintro ⟨h, hh, rfl⟩
        exact ⟨h.flatId, ⟨h, hh, rfl⟩, rfl⟩

theorem cdcTrimEvents_ok (c : CDC) (events : List Int) (cy' cth' : FlatHits)
    (h1 : c.cydet.trimEvents events = .ok cy')
    (h2 : c.cth.trimEvents events = .ok cth') :
    c.trimEvents events =
      .ok { c with cydet := cy', cth := cth', n_events := cy'.n_events } := by
  unfold CDC.trimEvents
  rw [h1, h2]

theorem ok_toOption_map {ε α β : Type} (a : α) (f : α → β) :
    (Except.ok a : Except ε α).toOption.map f = some (f a) := rfl

/-- C8 (amended): apply_max_layer_cut(L) keeps exactly the events of the
pair view whose deepest signal-hit layer is at least L, with background-hit
layers ignored and an event without signal hits assigned the sentinel layer
-1; consequently such an event is removed whenever L > -1 (in particular at
the concrete cut 5), but for L <= -1 the sentinel passes the cut and the
event is retained, so the unamended "always removed" clause fails - see the
counterexample.  When at least one event passes the cut, the kept events
(in ascending order) have their hit counts and hit payloads carried over to
the trimmed tracker table; when no event passes, trim_events raises
ValueError from np.concatenate over the empty selection before any
mutation, rather than producing an empty view. -/
theorem c8_max_layer_cut (c : CDC) (L : Int)
    (hcyw : TableWeak c.cydet) (hcthw : TableWeak c.cth)
    (hn1 : c.n_events ≤ c.cydet.n_events) (hn2 : c.n_events ≤ c.cth.n_events) :
    (∀ e, e ∈ goodMaxLayerEvents c L ↔
      (e < c.n_events ∧ L ≤ deepestSignalLayer c e)) ∧
    (goodMaxLayerEvents c L = [] →
      c.applyMaxLayerCut L =
        .error ("ValueError: need at least one array to concatenate", c)) ∧
    (goodMaxLayerEvents c L ≠ [] →
      (c.applyMaxLayerCut L).toOption.map (fun c' => c'.cydet.event_to_n_hits) =
        some ((goodMaxLayerEvents c L).map
          (fun e => c.cydet.event_to_n_hits.getD e 0)) ∧
      (c.applyMaxLayerCut L).toOption.map
          (fun c' => c'.cydet.data.map Hit.clearIdx) =
        some ((((goodMaxLayerEvents c L).map
          (fun e => blockOf c.cydet e)).flatten).map Hit.clearIdx)) := by
  have hlen_cy : c.cydet.event_to_hits.length = c.cydet.n_events := by
    obtain ⟨he2h, _, hne, _, _⟩ := hcyw
    rw [he2h, generateEventToHits, length_eventToHitsAux, hne]
  have hlen_cth : c.cth.event_to_hits.length = c.cth.n_events := by
    obtain ⟨he2h, _, hne, _, _⟩ := hcthw
    rw [he2h, generateEventToHits, length_eventToHitsAux, hne]
  have hbound : ∀ e ∈ List.range c.n_events, e < c.cydet.event_to_hits.length := by
    intro e he
    have := List.mem_range.mp he
    omega
  have hgood_sub : ∀ e ∈ goodMaxLayerEvents c L, e < c.n_events := by
    intro e he
    exact List.mem_range.mp (List.mem_filter.mp he).1
  have happly : c.applyMaxLayerCut L =
      c.trimEvents ((goodMaxLayerEvents c L).map Int.ofNat) := by
    unfold CDC.applyMaxLayerCut
    rw [collectSigWires_ok c (List.range c.n_events) hbound]
    dsimp only
    congr 1
    rw [List.map_map]
    rw [show (fun p : Nat × Int => Int.ofNat p.1) =
      (Int.ofNat ∘ (fun p : Nat × Int => p.1)) from rfl, ← List.map_map]
    congr 1
    rw [zip_map_filter_fst]
    unfold goodMaxLayerEvents
    apply List.filter_congr
    intro e _
    show decide (L ≤ (if (sigWiresOf c e).length ≠ 0 then
      npMaxInt ((sigWiresOf c e).map c.geom.point_layers) else -1)) =
      decide (L ≤ deepestSignalLayer c e)
    rw [codeMaxLayer_eq_deepest c e]
  have hgood_cy : ∀ e ∈ goodMaxLayerEvents c L,
      e < c.cydet.event_to_hits.length := by
    intro e he
    have := hgood_sub e he
    omega
  have hgood_cth : ∀ e ∈ goodMaxLayerEvents c L,
      e < c.cth.event_to_hits.length := by
    intro e he
    have := hgood_sub e he
    omega
  have hcy_len := trimEvents_data_length c.cydet hcyw (goodMaxLayerEvents c L) hgood_cy
  refine ⟨?_, ?_, ?_⟩
  · intro e
    unfold goodMaxLayerEvents
    rw [List.mem_filter, List.mem_range]
    simp
  · intro hempty
    rw [happly, hempty]
    rfl
  · intro hne
    have htrim_cy := trimEvents_ok c.cydet ((goodMaxLayerEvents c L).map Int.ofNat)
      (goodMaxLayerEvents c L)
      (npIndexAll_ofNat c.cydet.event_to_hits.length (goodMaxLayerEvents c L) hgood_cy)
      hne
    have htrim_cth := trimEvents_ok c.cth ((goodMaxLayerEvents c L).map Int.ofNat)
      (goodMaxLayerEvents c L)
      (npIndexAll_ofNat c.cth.event_to_hits.length (goodMaxLayerEvents c L) hgood_cth)
      hne
    constructor
    · rw [happly, cdcTrimEvents_ok c _ _ _ htrim_cy htrim_cth, ok_toOption_map]
      dsimp only
      rw [trimLookupTables_counts]
    · rw [happly, cdcTrimEvents_ok c _ _ _ htrim_cy htrim_cth, ok_toOption_map]
      dsimp only
      rw [trimLookupTables_payload _ _ hcy_len]
      dsimp only
      rw [trimmedData_eq_blocks]

/-- A geometry provider whose layer of a point equals its flat id. -/
def exGeomId : Geom := { point_layers := fun v => v }

/-- The tracker table of the concrete layer-cut scenario: event 0 has one
signal hit on a layer-4 wire; event 1 has a signal hit on a layer-6 wire
and a background hit on a layer-9 wire. -/
def exCyDetC : FlatHits :=
  { data := [⟨1, 0, 0, 4, 0, 0, 0⟩, ⟨1, 0, 0, 6, 0, 1, 1⟩, ⟨0, 0, 0, 9, 0, 2, 1⟩]
    event_to_n_hits := [1, 2]
    event_to_hits := [[0], [1, 2]]
    hits_to_events := [0, 1, 1]
    n_hits := 3
    n_events := 2
    signal_coding := 1 }

/-- A two-event hodoscope table accompanying the layer-cut scenario. -/
def exCthC : FlatHits :=
  { data := [⟨1, 0, 0, 0, 1, 0, 0⟩, ⟨1, 0, 0, 0, 0, 1, 1⟩]
    event_to_n_hits := [1, 1]
    event_to_hits := [[0], [1]]
    hits_to_events := [0, 1]
    n_hits := 2
    n_events := 2
    signal_coding := 1 }

/-- The pair view of the concrete layer-cut scenario. -/
def exCDCs : CDC :=
  { cydet := exCyDetC, cth := exCthC, geom := exGeomId, n_events := 2 }

theorem c8_max_layer_cut_witness :
    (exCDCs.applyMaxLayerCut 5).toOption.map
      (fun c' => c'.cydet.event_to_n_hits) = some [2] ∧
    (exCDCs.applyMaxLayerCut 5).toOption.map
        (fun c' => c'.cydet.data.map Hit.clearIdx) =
      some [⟨1, 0, 0, 6, 0, 0, 0⟩, ⟨0, 0, 0, 9, 0, 0, 0⟩] := by
  have h := c8_max_layer_cut exCDCs 5 (by decide) (by decide) (by decide) (by decide)
  have h2 := h.2.2 (by decide)
  refine ⟨?_, ?_⟩
  · rw [h2.1]
    decide
  · rw [h2.2]
    decide

/-- The pair view of the zero-signal counterexample: its only event holds a
single background hit and no signal hit. -/
def exCDCb : CDC :=
  { cydet :=
      { data := [⟨0, 0, 0, 9, 0, 0, 0⟩]
        event_to_n_hits := [1]
        event_to_hits := [[0]]
        hits_to_events := [0]
        n_hits := 1
        n_events := 1
        signal_coding := 1 }
    cth :=
      { data := [⟨1, 0, 0, 0, 0, 0, 0⟩]
        event_to_n_hits := [1]
        event_to_hits := [[0]]
        hits_to_events := [0]
        n_hits := 1
        n_events := 1
        signal_coding := 1 }
    geom := exGeomId
    n_events := 1 }

/-- C8 counterexample: an event with zero signal hits is treated as layer
-1, and at the cut value -1 the comparison -1 >= -1 passes, so the event is
retained rather than "always removed": apply_max_layer_cut(-1) keeps the
one-background-hit event. -/
theorem c8_counterexample :
    (exCDCb.cydet.getSignalHitsSingle 0).toOption.map List.length = some 0 ∧
    (exCDCb.applyMaxLayerCut (-1)).toOption.map
      (fun c' => c'.cydet.event_to_n_hits) = some [1] := by decide

theorem c10_cth_finalize_witness :
    (cthFinalize exTableTwo).up_data =
      (cthFinalize exTableTwo).base.data.filter (fun h => decide (h.zPos = 1)) :=
  (c10_cth_finalize exTableTwo).2.1
